import Mathlib

/-!
Verification of the OpenAPI tag-hierarchy tooling
(`client-sdks/openapi/process_openapi_hierarchy.py` and
`client-sdks/openapi/patch_api_hierarchy.py`).

The Python code is shallowly embedded:
* Python dicts (which preserve insertion order and have unique keys) are
  association lists `List (String × α)`; dict lookup is first-match lookup,
  `d[k] = v` is `setKey` (replace in place, else append at the end).
* YAML values are the inductive type `Val`.
* A raised exception is `Option.none` for the functions that can raise.
* Generated source files are lists of their lines (strings, each line keeping
  its trailing newline exactly as Python `readlines` produces them); writing
  the file back is modelled by returning the new list of lines.
-/

/-- First-match lookup in an association list; Python `d[k]` / `k in d`
for dicts, whose keys are unique, so first match is the only match. -/
def lookupKey {α : Type} : List (String × α) → String → Option α
  | [], _ => none
  | (k, v) :: rest, key => if k = key then some v else lookupKey rest key

/-- Python `d[k] = v` on an ordered dict: replace the value at an existing
key in place (keeping its position), otherwise append the new pair. -/
def setKey {α : Type} : List (String × α) → String → α → List (String × α)
  | [], key, v => [(key, v)]
  | (k, w) :: rest, key, v => if k = key then (k, v) :: rest else (k, w) :: setKey rest key v

/-- Python `list.insert(i, a)`: indices past the end append (Lean's `take`
and `drop` clamp exactly like Python's slice-based insert for `i ≥ 0`). -/
def pyInsert {α : Type} (l : List α) (i : Nat) (a : α) : List α :=
  l.take i ++ a :: l.drop i

/-- The whitespace characters stripped by Python `str.strip()` (the ASCII
ones; all strings handled here are ASCII). -/
def isPySpace (c : Char) : Bool :=
  c = ' ' || c = '\t' || c = '\n' || c = '\r' || c = '\x0b' || c = '\x0c'

/-- Python `str.strip()`: drop whitespace from both ends. -/
def pyStrip (s : String) : String :=
  String.mk (((s.data.dropWhile isPySpace).reverse.dropWhile isPySpace).reverse)

/-- Python `str.lower()` (ASCII). -/
def pyLower (s : String) : String :=
  String.mk (s.data.map Char.toLower)

/-- Python `str.replace(a, b)` for single-character `a`, `b`. -/
def replaceChar (s : String) (a b : Char) : String :=
  String.mk (s.data.map (fun c => if c = a then b else c))

/-- `needle` is a prefix of `hay` (on character lists). -/
def startsWithChars : List Char → List Char → Bool
  | [], _ => true
  | _ :: _, [] => false
  | a :: as, b :: bs => a = b && startsWithChars as bs

/-- `needle` occurs as a contiguous substring of `hay` (on character lists);
Python `needle in hay` for strings. -/
def listContainsSub (needle : List Char) : List Char → Bool
  | [] => startsWithChars needle []
  | c :: rest => startsWithChars needle (c :: rest) || listContainsSub needle rest

/-- Python `needle in hay` on strings. -/
def strContains (hay needle : String) : Bool :=
  listContainsSub needle.data hay.data

/-- Python `s.startswith(p)`. -/
def startsWithStr (s p : String) : Bool := startsWithChars p.data s.data

/-- Python `s.endswith(p)`. -/
def endsWithStr (s p : String) : Bool := startsWithChars p.data.reverse s.data.reverse

/-- Lexicographic (code-point) strict order on character lists; Python `<`
on strings. -/
def ltCharList : List Char → List Char → Bool
  | [], [] => false
  | [], _ :: _ => true
  | _ :: _, [] => false
  | a :: as, b :: bs => if a < b then true else if b < a then false else ltCharList as bs

/-- Python `<` on strings (code-point lexicographic). -/
def ltStr (a b : String) : Bool := ltCharList a.data b.data

/-- The non-strict order used to model Python `sorted`. -/
def strLe (a b : String) : Prop := ltStr b a = false

instance : DecidableRel strLe := fun a b => by unfold strLe; infer_instance

/-- Python `sorted(xs)` on strings: sort ascending by code-point order. -/
def sortStrings (l : List String) : List String := List.insertionSort strLe l

/- ===================== the tag hierarchy =====================
`process_openapi_hierarchy.py` builds the hierarchy as nested dicts
(tag → sub-hierarchy); `Hier` is that recursive dict shape. -/

/-- A hierarchy tree: a mapping from tag to sub-hierarchy
(`process_openapi_hierarchy.py`, built by `build_hierarchy_from_tags`). -/
inductive Hier where
  | node : List (String × Hier) → Hier

/-- `build_hierarchy_from_tags(tags, hierarchy)`
(`process_openapi_hierarchy.py`, lines 30-41): walk the tag list, at each tag
descending into the existing subtree or creating an empty one.  The Python
function mutates `hierarchy` in place; here the updated tree is returned. -/
def build_hierarchy_from_tags : List String → Hier → Hier
  | [], h => h
  | t :: ts, Hier.node es =>
    let sub := match lookupKey es t with
      | some s => s
      | none => Hier.node []
    Hier.node (setKey es t (build_hierarchy_from_tags ts sub))

/-- `get_leaf_tag(tags)` (`process_openapi_hierarchy.py`, lines 44-53):
`tags[-1] if tags else None`. -/
def get_leaf_tag (tags : List String) : Option String :=
  tags.getLast?

/-- Loop body of `extract_parent_child_pairs` (`patch_api_hierarchy.py`,
lines 55-71) over the entries of one tree level: for each `(key, value)`,
emit `(parent, key)` when `parent` is truthy (Python `if parent:` —
`None` and the empty string are both falsy), then, when `value` is a
non-empty dict (`if value:`), recurse with `key` as the new parent. -/
def extractPairsList : List (String × Hier) → Option String → List (String × String)
  | [], _ => []
  | (k, Hier.node sub) :: rest, parent =>
    (match parent with
     | some p => if p = "" then [] else [(p, k)]
     | none => []) ++
    (if sub.isEmpty then [] else extractPairsList sub (some k)) ++
    extractPairsList rest parent

/-- `extract_parent_child_pairs(hierarchy, parent=None)`
(`patch_api_hierarchy.py`, lines 55-71). -/
def extract_parent_child_pairs (h : Hier) (parent : Option String) : List (String × String) :=
  match h with
  | Hier.node es => extractPairsList es parent

/-- The consecutive pairs `(t1,t2),(t2,t3),...` of a tag list, as the spec
describes the linearization of a single inserted chain. -/
def adjacentPairs (ts : List String) : List (String × String) :=
  ts.zip ts.tail

/-- A single chain `{t1: {t2: ... {tn: {}}}}`: the tree that inserting one
tag list into an empty tree produces (proof helper). -/
def chainH : List String → Hier
  | [] => Hier.node []
  | t :: ts => Hier.node [(t, chainH ts)]

/- ===================== YAML values ===================== -/

/-- An in-memory YAML/JSON value, as `ruamel.yaml` loads it: null, booleans,
numbers, strings, sequences, and (insertion-ordered) mappings. -/
inductive Val where
  | vnull : Val
  | vbool : Bool → Val
  | vint : Int → Val
  | vstr : String → Val
  | vlist : List Val → Val
  | vobj : List (String × Val) → Val

/- Fuel measure for the recursive spec walk: one unit per value node, list
cell and mapping entry (string contents do not count). -/
mutual
def valSize : Val → Nat
  | Val.vnull => 1
  | Val.vbool _ => 1
  | Val.vint _ => 1
  | Val.vstr _ => 1
  | Val.vlist xs => 1 + listVS xs
  | Val.vobj kvs => 1 + entriesVS kvs
def listVS : List Val → Nat
  | [] => 1
  | x :: xs => 1 + valSize x + listVS xs
def entriesVS : List (String × Val) → Nat
  | [] => 1
  | (_, v) :: rest => 1 + valSize v + entriesVS rest
end

/-- Python `isinstance(item, dict) and "const" in item`
(`convert_oneof_const_to_enum`, line 76). -/
def isConstItem : Val → Bool
  | Val.vobj kvs => (lookupKey kvs "const").isSome
  | _ => false

/-- `item["const"]` for an item known to be a dict carrying `"const"`
(guarded by `isConstItem` at every use; the default is never reached). -/
def getConstVal : Val → Val
  | Val.vobj kvs => (lookupKey kvs "const").getD Val.vnull
  | _ => Val.vnull

/-- `one_of[0].get("type", "string")` (`convert_oneof_const_to_enum`,
line 81; the first item is a dict whenever this is evaluated). -/
def getTypeVal : Val → Val
  | Val.vobj kvs => (lookupKey kvs "type").getD (Val.vstr "string")
  | _ => Val.vstr "string"

/-- Body of `convert_oneof_const_to_enum` (`process_openapi_hierarchy.py`,
lines 56-91) on the entries of a dict schema: no `oneOf` key, a non-list
`oneOf`, or a member without `const` returns the schema unchanged; otherwise
the schema becomes `{type, enum}` plus every sibling key except
`oneOf`/`type`/`enum`, in the original order.  An empty all-`const` `oneOf`
list makes the Python `one_of[0]` raise `IndexError`, modelled as `none`. -/
def convertObjEntries (kvs : List (String × Val)) : Option (List (String × Val)) :=
  match lookupKey kvs "oneOf" with
  | none => some kvs
  | some (Val.vlist one_of) =>
    if one_of.all isConstItem then
      match one_of with
      | [] => none
      | first :: _ =>
        some (("type", getTypeVal first) :: ("enum", Val.vlist (one_of.map getConstVal)) ::
          kvs.filter (fun kv => !(kv.1 = "oneOf" || kv.1 = "type" || kv.1 = "enum")))
    else some kvs
  | some _ => some kvs

/-- `convert_oneof_const_to_enum(schema)` (`process_openapi_hierarchy.py`,
lines 56-91): non-dicts and dicts without `oneOf` are returned unchanged. -/
def convert_oneof_const_to_enum : Val → Option Val
  | Val.vobj kvs => (convertObjEntries kvs).map Val.vobj
  | v => some v

/- `fix_oneof_const_schemas(obj)` (`process_openapi_hierarchy.py`,
lines 94-112), written against an explicit recursion-fuel parameter so that
the recursion (which descends into the dict produced by
`convert_oneof_const_to_enum`, not into a syntactic subterm) is structural:
on a dict, first convert it when it has a `oneOf` key, then rebuild it
recursing into every value; on a list, recurse into every element;
primitives are returned unchanged.  `fix_oneof_const_schemas` below runs it
with fuel `valSize obj`, which is proved sufficient (`fixFuel_mono` and the
equation lemmas `fix_obj_eq`/`fix_list_eq` recover the fuel-free recursive
semantics), so the fuel never runs out on the actual call. -/
mutual
def fixFuel : Nat → Val → Option Val
  | 0, _ => none
  | n + 1, Val.vobj kvs =>
    match (if (lookupKey kvs "oneOf").isSome then convertObjEntries kvs else some kvs) with
    | none => none
    | some kvs2 => (fixEntriesFuel n kvs2).map Val.vobj
  | n + 1, Val.vlist xs => (fixListFuel n xs).map Val.vlist
  | _ + 1, v => some v
def fixListFuel : Nat → List Val → Option (List Val)
  | 0, _ => none
  | _ + 1, [] => some []
  | n + 1, x :: xs =>
    match fixFuel n x, fixListFuel n xs with
    | some y, some ys => some (y :: ys)
    | _, _ => none
def fixEntriesFuel : Nat → List (String × Val) → Option (List (String × Val))
  | 0, _ => none
  | _ + 1, [] => some []
  | n + 1, (k, v) :: rest =>
    match fixFuel n v, fixEntriesFuel n rest with
    | some w, some ws => some ((k, w) :: ws)
    | _, _ => none
end

/-- `fix_oneof_const_schemas(obj)`: run the fuelled walk with enough fuel. -/
def fix_oneof_const_schemas (obj : Val) : Option Val :=
  fixFuel (valSize obj) obj

/-- The dict-comprehension `{k: fix_oneof_const_schemas(v) for k, v in
obj.items()}` as a fuel-free function (proved equal to the fuelled walk). -/
def fixVals (es : List (String × Val)) : Option (List (String × Val)) :=
  match es with
  | [] => some []
  | (k, v) :: rest =>
    match fix_oneof_const_schemas v, fixVals rest with
    | some w, some ws => some ((k, w) :: ws)
    | _, _ => none

/-- The list comprehension `[fix_oneof_const_schemas(item) for item in obj]`
as a fuel-free function. -/
def fixElems (xs : List Val) : Option (List Val) :=
  match xs with
  | [] => some []
  | x :: rest =>
    match fix_oneof_const_schemas x, fixElems rest with
    | some y, some ys => some (y :: ys)
    | _, _ => none

/- ===================== the endpoint-processing pass ===================== -/

/-- An OpenAPI operation, with the fields `process_openapi` reads or
writes.  `tags?` is `none` when the operation has no `tags` key; response
objects and component schemas stay generic `Val`s. -/
structure Op where
  tags? : Option (List String)
  summary? : Option String
  description? : Option String
  operationId? : Option String
  responses? : Option (List (String × Val))
  xOperationName? : Option String
  xUnwrapListResponse : Bool

/-- The accumulator of the endpoint loop of `process_openapi`
(`process_openapi_hierarchy.py`, lines 133-135): the hierarchy under
construction and the two tag sets.  Python sets are modelled as
insertion-ordered duplicate-free lists; every use (membership, difference,
`sorted`) is order-insensitive. -/
structure ExtractState where
  api_hierarchy : Hier
  all_tags : List String
  tags_with_endpoints : List String

/-- Add one element to a modelled set. -/
def addTagSet (s : List String) (t : String) : List String :=
  if t ∈ s then s else s ++ [t]

/-- Python `set.update(tags)`. -/
def addTagsSet (s : List String) (ts : List String) : List String :=
  ts.foldl addTagSet s

/-- The body of the endpoint loop of `process_openapi`
(`process_openapi_hierarchy.py`, lines 146-163) for one operation: when the
operation has a non-empty `tags` list, insert it into the hierarchy, add all
its tags to `all_tags`, record the leaf tag (when truthy) into
`tags_with_endpoints`, and collapse the operation's tags to `[leaf]`
(`[]` when the leaf is falsy, i.e. the empty string). -/
def processOperation (op : Op) (st : ExtractState) : Op × ExtractState :=
  match op.tags? with
  | some tags =>
    if tags.isEmpty then (op, st)
    else
      let st1 : ExtractState :=
        { st with api_hierarchy := build_hierarchy_from_tags tags st.api_hierarchy,
                  all_tags := addTagsSet st.all_tags tags }
      match get_leaf_tag tags with
      | some leaf =>
        let st2 : ExtractState :=
          if leaf ≠ "" then
            { st1 with tags_with_endpoints := addTagSet st1.tags_with_endpoints leaf }
          else st1
        ({ op with tags? := some (if leaf ≠ "" then [leaf] else []) }, st2)
      | none => (op, st1)
  | none => (op, st)

/-- The eight HTTP methods the endpoint loop looks for
(`process_openapi_hierarchy.py`, line 141). -/
def httpMethods : List String :=
  ["get", "post", "put", "delete", "patch", "options", "head", "trace"]

/-- One method of the path loop: `if method in path_item:` process the
operation and write it back (`operation["tags"] = ...` mutates the
operation stored in the path item). -/
def processMethodStep (acc : List (String × Op) × ExtractState) (m : String) :
    List (String × Op) × ExtractState :=
  match lookupKey acc.1 m with
  | some op =>
    let r := processOperation op acc.2
    (setKey acc.1 m r.1, r.2)
  | none => acc

/-- One iteration of the path loop: try the eight methods in order. -/
def processPathItem (item : List (String × Op)) (st : ExtractState) :
    List (String × Op) × ExtractState :=
  httpMethods.foldl processMethodStep (item, st)

/-- The endpoint loop of `process_openapi` over all paths in order
(`process_openapi_hierarchy.py`, lines 140-165). -/
def processPathsPhase : List (String × List (String × Op)) → ExtractState →
    List (String × List (String × Op)) × ExtractState
  | [], st => ([], st)
  | (p, item) :: rest, st =>
    let r := processPathItem item st
    let r2 := processPathsPhase rest r.2
    ((p, r.1) :: r2.1, r2.2)

/-- The initial accumulator (`api_hierarchy = {}`, empty sets). -/
def initialState : ExtractState :=
  { api_hierarchy := Hier.node [], all_tags := [], tags_with_endpoints := [] }

/-- `tags_without_endpoints = all_tags - tags_with_endpoints`
(`process_openapi_hierarchy.py`, line 168). -/
def tagsWithoutOf (st : ExtractState) : List String :=
  st.all_tags.filter (fun t => t ∉ st.tags_with_endpoints)

/-- The dummy-path slug `tag.lower().replace(' ', '-').replace('_', '-')`
(`process_openapi_hierarchy.py`, line 174). -/
def slugOfTag (tag : String) : String :=
  replaceChar (replaceChar (pyLower tag) ' ' '-') '_' '-'

/-- The dummy path `f"/dummy/{slug}"`. -/
def dummyPathOf (tag : String) : String :=
  "/dummy/" ++ slugOfTag tag

/-- The synthesized placeholder operation for a tag
(`process_openapi_hierarchy.py`, lines 176-183). -/
def dummy_operation (tag : String) : Op :=
  { tags? := some [tag],
    summary? := some ("Dummy endpoint for " ++ tag ++ " tag"),
    description? := some ("This is a placeholder endpoint for the " ++ tag ++
      " tag in the hierarchy"),
    operationId? := some ("dummy_" ++ replaceChar (replaceChar tag ' ' '_') '-' '_'),
    responses? := some [("200", Val.vobj [("description", Val.vstr "Success")])],
    xOperationName? := some "dummy",
    xUnwrapListResponse := false }

/-- The dummy-endpoint loop (`process_openapi_hierarchy.py`, lines 171-185):
for each tag of `tags_without_endpoints` in `sorted` order, assign
`spec["paths"][dummy_path] = {"get": ...}`. -/
def addDummyEndpoints (paths : List (String × List (String × Op)))
    (tagsWithout : List String) : List (String × List (String × Op)) :=
  (sortStrings tagsWithout).foldl
    (fun ps tag => setKey ps (dummyPathOf tag) [("get", dummy_operation tag)]) paths

/-- The `paths` table of the spec after the endpoint loop and the
dummy-endpoint loop of `process_openapi`. -/
def processOpenapiPaths (paths : List (String × List (String × Op))) :
    List (String × List (String × Op)) :=
  let r := processPathsPhase paths initialState
  addDummyEndpoints r.1 (tagsWithoutOf r.2)

/- ===================== the list-unwrap marking pass ===================== -/

/-- The five methods the unwrap pass considers
(`process_openapi_hierarchy.py`, line 243). -/
def fiveMethods : List String := ["get", "post", "put", "delete", "patch"]

/-- The pagination-indicator property names
(`process_openapi_hierarchy.py`, lines 268-275). -/
def pagination_fields : List String :=
  ["has_more", "url", "first_id", "last_id", "next_page_token", "total"]

/-- Python `s.split(sep)` for a single-character separator. -/
def splitOnChar (sep : Char) : List Char → List (List Char)
  | [] => [[]]
  | c :: rest =>
    let r := splitOnChar sep rest
    if c = sep then [] :: r
    else (c :: r.headD []) :: r.tail

/-- Python `s.split("/")`. -/
def pySplitSlash (s : String) : List String :=
  (splitOnChar '/' s.data).map String.mk

/-- Python `key in x` for a loaded YAML value: key lookup on a dict,
element equality on a list, substring test on a string; on any other value
Python raises `TypeError`, modelled as `none`. -/
def pyContainsKey (v : Val) (k : String) : Option Bool :=
  match v with
  | Val.vobj kvs => some (lookupKey kvs k).isSome
  | Val.vlist xs => some (xs.any fun x => match x with
      | Val.vstr s => s = k
      | _ => false)
  | Val.vstr s => some (strContains s k)
  | _ => none

/-- Python `x[k]` for a string key: succeeds only on a dict containing the
key (anything else raises, modelled as `none`). -/
def pyIndexStr (v : Val) (k : String) : Option Val :=
  match v with
  | Val.vobj kvs => lookupKey kvs k
  | _ => none

/-- Python `x.get(k, d)`: requires a dict (`.get` on anything else raises,
modelled as `none`). -/
def pyGetDefault (v : Val) (k : String) (d : Val) : Option Val :=
  match v with
  | Val.vobj kvs => some ((lookupKey kvs k).getD d)
  | _ => none

/-- The per-operation test of the unwrap pass
(`process_openapi_hierarchy.py`, lines 249-278): does the operation's 200
JSON response `$ref` a `List*Response` component whose declared properties
have `data` and none of the pagination fields?  `none` models a raised
exception (non-string `$ref`, `.get` on a non-dict, `in` on an unordered
value). -/
def unwrapMarkCond (schemas : List (String × Val)) (op : Op) : Option Bool :=
  match op.responses? with
  | none => some false
  | some resps =>
    match lookupKey resps "200" with
    | none => some false
    | some r200 =>
      match pyContainsKey r200 "content" with
      | none => none
      | some false => some false
      | some true =>
        match pyIndexStr r200 "content" with
        | none => none
        | some content =>
          match pyContainsKey content "application/json" with
          | none => none
          | some false => some false
          | some true =>
            match pyIndexStr content "application/json" with
            | none => none
            | some appjson =>
              match pyGetDefault appjson "schema" (Val.vobj []) with
              | none => none
              | some schemaRef =>
                match pyContainsKey schemaRef "$ref" with
                | none => none
                | some false => some false
                | some true =>
                  match pyIndexStr schemaRef "$ref" with
                  | none => none
                  | some (Val.vstr r) =>
                    let schemaName := (pySplitSlash r).getLastD ""
                    if schemaName ≠ "" && startsWithStr schemaName "List" &&
                        endsWithStr schemaName "Response" then
                      let schemaDef := (lookupKey schemas schemaName).getD (Val.vobj [])
                      match pyContainsKey schemaDef "properties" with
                      | none => none
                      | some false => some false
                      | some true =>
                        match pyIndexStr schemaDef "properties" with
                        | none => none
                        | some props =>
                          match pagination_fields.anyM (fun f => pyContainsKey props f) with
                          | none => none
                          | some pag =>
                            match pyContainsKey props "data" with
                            | none => none
                            | some hasData => some (!pag && hasData)
                    else some false
                  | some _ => none

/-- `operation["x-unwrap-list-response"] = True`. -/
def setUnwrapFlag (op : Op) : Op :=
  { op with xUnwrapListResponse := true }

/-- One `(method, operation)` entry of the unwrap loop
(`process_openapi_hierarchy.py`, lines 242-283): entries whose lowercased
key is not one of the five methods are skipped; a qualifying operation gets
the extension flag set. -/
def unwrapEntry (schemas : List (String × Val)) : String × Op → Option (String × Op)
  | (m, op) =>
    if pyLower m ∈ fiveMethods then
      match unwrapMarkCond schemas op with
      | none => none
      | some true => some (m, setUnwrapFlag op)
      | some false => some (m, op)
    else some (m, op)

/-- The unwrap loop over one path item. -/
def unwrapPassItem (schemas : List (String × Val)) (item : List (String × Op)) :
    Option (List (String × Op)) :=
  item.mapM (unwrapEntry schemas)

/-- The unwrap loop over all paths
(`process_openapi_hierarchy.py`, lines 240-283). -/
def unwrapPass (schemas : List (String × Val))
    (paths : List (String × List (String × Op))) :
    Option (List (String × List (String × Op))) :=
  paths.mapM (fun e => (unwrapPassItem schemas e.2).map (fun it => (e.1, it)))

/- ===================== the source patcher ===================== -/

/-- A regex `\w` word character (the identifiers involved are ASCII). -/
def isWordChar (c : Char) : Bool :=
  ('A' ≤ c && c ≤ 'Z') || ('a' ≤ c && c ≤ 'z') || ('0' ≤ c && c ≤ '9') || c = '_'

/-- Scanner for `re.match(r"^class \w+Api:", line)` after the literal
`"class "`: at each position, the regex matches when at least one word
character has been consumed and `"Api:"` starts here; otherwise consume one
more word character. -/
def classScan : Nat → List Char → Bool
  | _, [] => false
  | consumed, c :: rest =>
    (decide (1 ≤ consumed) && startsWithChars ("Api:".data) (c :: rest)) ||
    (isWordChar c && classScan (consumed + 1) rest)

/-- `re.match(r"^class \w+Api:", line)` (`patch_api_hierarchy.py`,
line 109). -/
def isClassDecl (line : String) : Bool :=
  startsWithChars ("class ".data) line.data && classScan 0 (line.data.drop 6)

/-- One substitution pass of `re.sub("(.)([A-Z][a-z]+)", r"\1_\2", name)`:
scan left to right; a match is any character followed by an upper-case
letter and a maximal non-empty run of lower-case letters; insert `_` between
the two groups and resume after the match.  The scan consumes at least one
character per step, so running it with fuel `length + 1` (`snakeSub1`)
never reaches the fuel cut-off. -/
def snakeSub1Go : Nat → List Char → List Char
  | 0, l => l
  | _ + 1, [] => []
  | _ + 1, [c] => [c]
  | n + 1, c :: u :: rest =>
    if 'A' ≤ u && u ≤ 'Z' then
      if (rest.takeWhile fun x => 'a' ≤ x && x ≤ 'z').isEmpty then
        c :: snakeSub1Go n (u :: rest)
      else
        c :: '_' :: u :: (rest.takeWhile fun x => 'a' ≤ x && x ≤ 'z') ++
          snakeSub1Go n (rest.dropWhile fun x => 'a' ≤ x && x ≤ 'z')
    else c :: snakeSub1Go n (u :: rest)

/-- The first substitution pass, with enough fuel. -/
def snakeSub1 (l : List Char) : List Char := snakeSub1Go (l.length + 1) l

/-- The second pass `re.sub("([a-z0-9])([A-Z])", r"\1_\2", s1)`: insert `_`
between a lower-case letter or digit and an upper-case letter, resuming
after the matched pair. -/
def snakeSub2 : List Char → List Char
  | [] => []
  | [c] => [c]
  | a :: b :: rest =>
    if (('a' ≤ a && a ≤ 'z') || ('0' ≤ a && a ≤ '9')) && ('A' ≤ b && b ≤ 'Z') then
      a :: '_' :: b :: snakeSub2 rest
    else a :: snakeSub2 (b :: rest)

/-- `to_snake_case(name)` (`patch_api_hierarchy.py`, lines 26-38). -/
def to_snake_case (name : String) : String :=
  replaceChar (replaceChar (pyLower (String.mk (snakeSub2 (snakeSub1 name.data)))) ' ' '_') '-' '_'

/-- A separator for `re.split(r"[_\-\s]+", name)`. -/
def isSepChar (c : Char) : Bool := c = '_' || c = '-' || isPySpace c

/-- `re.split(r"[_\-\s]+", name)`: split on maximal separator runs,
producing empty pieces at the ends when the string starts or ends with a
separator (as Python `re.split` does).  Each recursion step consumes the
non-empty separator run, so fuel `length + 1` (`splitSepRuns`) never reaches
the fuel cut-off. -/
def splitSepRunsGo : Nat → List Char → List (List Char)
  | 0, l => [l]
  | n + 1, l =>
    match l.dropWhile (fun c => !isSepChar c) with
    | [] => [l.takeWhile (fun c => !isSepChar c)]
    | c :: cs =>
      l.takeWhile (fun c => !isSepChar c) :: splitSepRunsGo n ((c :: cs).dropWhile isSepChar)

/-- The separator split, with enough fuel. -/
def splitSepRuns (l : List Char) : List (List Char) := splitSepRunsGo (l.length + 1) l

/-- Python `str.capitalize()`: first character upper-cased, the rest
lower-cased. -/
def pyCapitalize : List Char → List Char
  | [] => []
  | c :: rest => c.toUpper :: rest.map Char.toLower

/-- `to_pascal_case(name)` (`patch_api_hierarchy.py`, lines 41-52). -/
def to_pascal_case (name : String) : String :=
  String.mk (((splitSepRuns name.data).map pyCapitalize).flatten)

/-- `len(line) - len(line.lstrip())`: the leading-whitespace count. -/
def indentOf (line : String) : Nat :=
  (line.data.takeWhile isPySpace).length

/-- The verbatim child import statement built by `patch_api_file`
(`patch_api_hierarchy.py`, line 100). -/
def childImportLine (package_name childTag : String) : String :=
  "from " ++ package_name ++ ".api." ++ (to_snake_case childTag ++ "_api") ++
    " import " ++ (to_pascal_case childTag ++ "Api") ++ "\n"

/-- The text of the child property statement inserted by `patch_api_file`
(`patch_api_hierarchy.py`, line 136), without indentation and newline. -/
def childPropertyText (childTag : String) : String :=
  "self." ++ to_snake_case childTag ++ ": Optional[" ++
    (to_pascal_case childTag ++ "Api") ++ "] = None"

/-- First index `≥ start` whose line satisfies `p`
(Python `for i in range(start, len(lines))`). -/
def findIdxFrom (lines : List String) (start : Nat) (p : String → Bool) : Option Nat :=
  match (lines.drop start).findIdx? p with
  | none => none
  | some j => some (start + j)

/-- `patch_api_file(api_file, child_tag, package_name)`
(`patch_api_hierarchy.py`, lines 74-144) as a function of the file's lines
(each keeping its newline, as `readlines` yields them).  The result is
`(patched?, contents on disk afterwards)`: the file is written only on
success, so every failing branch returns the original lines.  The Python
code inserts the import into its in-memory list *before* searching for the
transport binding from `class_line_idx + 1` on, which (the import landing at
`class_line_idx - 2`) makes the search start at the shifted class line. -/
def patch_api_file (lines : List String) (childTag package_name : String) :
    Bool × List String :=
  let import_line := childImportLine package_name childTag
  if lines.any (fun line => strContains line (pyStrip import_line)) then
    (false, lines)
  else
    match lines.findIdx? isClassDecl with
    | none => (false, lines)
    | some class_line_idx =>
      let import_idx := class_line_idx - 2
      let lines1 := pyInsert lines import_idx import_line
      match findIdxFrom lines1 (class_line_idx + 1)
          (fun l => strContains l "self.api_client = api_client") with
      | none => (false, lines)
      | some api_client_line_idx =>
        let indent := indentOf (lines1.getD api_client_line_idx "")
        let property_line :=
          String.mk (List.replicate indent ' ') ++ childPropertyText childTag ++ "\n"
        (true, pyInsert lines1 (api_client_line_idx + 1) property_line)

/-- The marker comment `patch_llama_stack_client` anchors on
(`patch_api_hierarchy.py`, line 210). -/
def nestingMarker : String := "# Set up nested API structure based on x-nesting-config"

/-- The wiring assignment text for one pair (`patch_api_hierarchy.py`,
lines 223 and 239), without indentation and newline. -/
def wireLine (parentTag childTag : String) : String :=
  "self." ++ to_snake_case parentTag ++ "." ++ to_snake_case childTag ++
    " = self." ++ to_snake_case childTag

/-- `for line in reversed(patch_lines): lines.insert(insert_idx, line)`:
insert a block at a fixed index. -/
def insertBlock (lines : List String) (idx : Nat) (block : List String) : List String :=
  block.foldr (fun l acc => pyInsert acc idx l) lines

/-- `patch_llama_stack_client(client_file, pairs)` (`patch_api_hierarchy.py`,
lines 189-251) as a function of the file's lines: find the marker comment,
short-circuit when the first pair's wiring assignment is already present
(no check when `pairs` is empty), otherwise insert the wire-up comment and
one assignment per pair right after the marker, at the marker's
indentation. -/
def patch_llama_stack_client (lines : List String) (pairs : List (String × String)) :
    Bool × List String :=
  match lines.findIdx? (fun l => strContains l nestingMarker) with
  | none => (false, lines)
  | some comment_idx =>
    let alreadyPatched :=
      match pairs with
      | [] => false
      | (p, c) :: _ => lines.any (fun l => strContains l (wireLine p c))
    if alreadyPatched then (false, lines)
    else
      let indent := indentOf (lines.getD comment_idx "")
      let ind := String.mk (List.replicate indent ' ')
      let patch_lines :=
        (ind ++ "# Wire up parent-child API relationships\n") ::
          pairs.map (fun pc => ind ++ wireLine pc.1 pc.2 ++ "\n")
      (true, insertBlock lines (comment_idx + 1) patch_lines)

/- ===================== theorems: helpers ===================== -/

theorem lookupKey_setKey_self {α : Type} (es : List (String × α)) (k : String) (v : α) :
    lookupKey (setKey es k v) k = some v := by
  induction es with
  | nil => simp [setKey, lookupKey]
  | cons e rest ih =>
    obtain ⟨k', w⟩ := e
    by_cases h : k' = k
    · simp [setKey, lookupKey, h]
    · simp [setKey, lookupKey, h, ih]

theorem setKey_setKey_self {α : Type} (es : List (String × α)) (k : String) (v w : α) :
    setKey (setKey es k v) k w = setKey es k w := by
  induction es with
  | nil => simp [setKey]
  | cons e rest ih =>
    obtain ⟨k', u⟩ := e
    by_cases h : k' = k
    · simp [setKey, h]
    · simp [setKey, h, ih]

theorem build_hierarchy_idem (ts : List String) (h : Hier) :
    build_hierarchy_from_tags ts (build_hierarchy_from_tags ts h)
      = build_hierarchy_from_tags ts h := by
  induction ts generalizing h with
  | nil => rfl
  | cons t rest ih =>
    obtain ⟨es⟩ := h
    simp only [build_hierarchy_from_tags]
    cases hl : lookupKey es t with
    | none =>
      simp only [lookupKey_setKey_self, setKey_setKey_self, ih]
    | some s =>
      simp only [lookupKey_setKey_self, setKey_setKey_self, ih]

theorem build_empty_eq_chain (ts : List String) :
    build_hierarchy_from_tags ts (Hier.node []) = chainH ts := by
  induction ts with
  | nil => rfl
  | cons t rest ih => simp [build_hierarchy_from_tags, lookupKey, setKey, chainH, ih]

theorem extract_chain_parent (ts : List String) (p : String) (hp : p ≠ "")
    (hts : ∀ t ∈ ts.dropLast, t ≠ "") :
    extract_parent_child_pairs (chainH ts) (some p) = (p :: ts).zip ts := by
  induction ts generalizing p with
  | nil => simp [chainH, extract_parent_child_pairs, extractPairsList]
  | cons u rest ih =>
    cases rest with
    | nil =>
      simp [chainH, extract_parent_child_pairs, extractPairsList, hp]
    | cons w rest' =>
      have hu : u ≠ "" := hts u (by simp [List.dropLast])
      have hrest : ∀ t ∈ (w :: rest').dropLast, t ≠ "" := by
        intro t htmem
        exact hts t (by simp [List.dropLast, htmem])
      have := ih (p := u) hu hrest
      simp only [extract_parent_child_pairs, chainH] at this ⊢
      simp [extractPairsList, hp, chainH, this]

/- ===================== C1 ===================== -/

/-- C1 (counterexample): for the tag list `["", "b"]` the claimed pair list is
`[("", "b")]`, but `extract_parent_child_pairs` suppresses pairs whose parent
is the empty string (Python `if parent:` treats `""` as falsy), so the
extracted list is empty. -/
theorem c1_counterexample :
    extract_parent_child_pairs (build_hierarchy_from_tags ["", "b"] (Hier.node [])) none
      ≠ adjacentPairs ["", "b"] := by
  simp [build_hierarchy_from_tags, lookupKey, setKey, extract_parent_child_pairs,
    extractPairsList, adjacentPairs]

/-- C1 (amended): for every tag list `[t1,...,tn]` in which every tag other
than possibly the last is a non-empty string, inserting it into an empty tree
and extracting yields exactly `[(t1,t2),...,(t(n-1),tn)]` in that order (the
empty list when `n ≤ 1`). -/
theorem c1_chain_extraction (ts : List String) (hts : ∀ t ∈ ts.dropLast, t ≠ "") :
    extract_parent_child_pairs (build_hierarchy_from_tags ts (Hier.node [])) none
      = adjacentPairs ts := by
  rw [build_empty_eq_chain]
  cases ts with
  | nil => simp [chainH, extract_parent_child_pairs, extractPairsList, adjacentPairs]
  | cons t rest =>
    cases rest with
    | nil =>
      simp [chainH, extract_parent_child_pairs, extractPairsList, adjacentPairs]
    | cons w rest' =>
      have ht : t ≠ "" := hts t (by simp [List.dropLast])
      have hrest : ∀ u ∈ (w :: rest').dropLast, u ≠ "" := by
        intro u hu
        exact hts u (by simp [List.dropLast, hu])
      have hch := extract_chain_parent (w :: rest') t ht hrest
      simp only [extract_parent_child_pairs, chainH] at hch ⊢
      simp [extractPairsList, chainH, hch, adjacentPairs]

/-- C1 (witness): the amended theorem applied to the concrete
tag list `["a", "b", "c"]`. -/
theorem c1_chain_extraction_witness :
    extract_parent_child_pairs (build_hierarchy_from_tags ["a", "b", "c"] (Hier.node [])) none
      = adjacentPairs ["a", "b", "c"] :=
  c1_chain_extraction ["a", "b", "c"] (by decide)

/- ============== string containment and insertion helpers ============== -/

theorem startsWithChars_append (n t : List Char) :
    startsWithChars n (n ++ t) = true := by
  induction n with
  | nil => rfl
  | cons c cs ih => simp [startsWithChars, ih]

theorem listContainsSub_of_startsWith {n h : List Char}
    (hs : startsWithChars n h = true) : listContainsSub n h = true := by
  cases h with
  | nil => exact hs
  | cons c cs => simp [listContainsSub, hs]

theorem listContainsSub_parts (pre n suf : List Char) :
    listContainsSub n (pre ++ n ++ suf) = true := by
  induction pre with
  | nil =>
    exact listContainsSub_of_startsWith (by simpa using startsWithChars_append n suf)
  | cons p ps ih =>
    have ih' : listContainsSub n (ps ++ (n ++ suf)) = true := by
      simpa [List.append_assoc] using ih
    simp only [List.cons_append]
    simp [listContainsSub, ih']

theorem strContains_parts (s1 s2 s3 : String) :
    strContains (s1 ++ s2 ++ s3) s2 = true := by
  unfold strContains
  rw [String.data_append, String.data_append]
  exact listContainsSub_parts _ _ _

theorem pyStrip_parts (s : String) :
    ∃ pre suf, s.data = pre ++ (pyStrip s).data ++ suf := by
  refine ⟨s.data.takeWhile isPySpace,
    ((s.data.dropWhile isPySpace).reverse.takeWhile isPySpace).reverse, ?_⟩
  have h1 : (((s.data.dropWhile isPySpace).reverse.dropWhile isPySpace).reverse ++
      ((s.data.dropWhile isPySpace).reverse.takeWhile isPySpace).reverse)
        = s.data.dropWhile isPySpace := by
    rw [← List.reverse_append, List.takeWhile_append_dropWhile, List.reverse_reverse]
  conv_lhs => rw [← List.takeWhile_append_dropWhile isPySpace s.data]
  rw [List.append_assoc, pyStrip]
  exact congrArg _ h1.symm

theorem strContains_pyStrip (s : String) : strContains s (pyStrip s) = true := by
  obtain ⟨pre, suf, h⟩ := pyStrip_parts s
  unfold strContains
  rw [h]
  exact listContainsSub_parts _ _ _

theorem mem_pyInsert_self {α : Type} (l : List α) (i : Nat) (a : α) :
    a ∈ pyInsert l i a := by
  simp [pyInsert]

theorem mem_pyInsert_of_mem {α : Type} {l : List α} {b : α} (hb : b ∈ l)
    (i : Nat) (a : α) : b ∈ pyInsert l i a := by
  rw [← List.take_append_drop i l] at hb
  simp only [pyInsert, List.mem_append, List.mem_cons] at hb ⊢
  tauto

theorem mem_insertBlock_of_mem {b : String} {lines : List String} (hb : b ∈ lines)
    (idx : Nat) (block : List String) : b ∈ insertBlock lines idx block := by
  induction block with
  | nil => exact hb
  | cons x xs ih => exact mem_pyInsert_of_mem ih _ _

theorem mem_insertBlock_of_mem_block {b : String} {block : List String} (hb : b ∈ block)
    (lines : List String) (idx : Nat) : b ∈ insertBlock lines idx block := by
  induction block with
  | nil => cases hb
  | cons x xs ih =>
    rcases List.mem_cons.mp hb with rfl | h
    · exact mem_pyInsert_self _ _ _
    · exact mem_pyInsert_of_mem (ih h) _ _

theorem findIdx?_isSome_of_exists {α : Type} {l : List α} {p : α → Bool}
    (h : ∃ x ∈ l, p x = true) : (l.findIdx? p).isSome = true := by
  cases hf : l.findIdx? p with
  | some i => rfl
  | none =>
    obtain ⟨x, hx, hpx⟩ := h
    have := List.findIdx?_eq_none_iff.mp hf x hx
    rw [this] at hpx
    cases hpx

theorem exists_of_findIdx?_eq_some {α : Type} {l : List α} {p : α → Bool} {i : Nat}
    (h : l.findIdx? p = some i) : ∃ x ∈ l, p x = true := by
  by_contra hn
  push_neg at hn
  have : l.findIdx? p = none := List.findIdx?_eq_none_iff.mpr (by
    intro x hx
    have := hn x hx
    simpa using this)
  rw [this] at h
  cases h

/- ============== case characterizations of the two patchers ============== -/

theorem patch_api_file_skip {lines : List String} {childTag package_name : String}
    (h : (lines.any fun line =>
      strContains line (pyStrip (childImportLine package_name childTag))) = true) :
    patch_api_file lines childTag package_name = (false, lines) := by
  simp [patch_api_file, h]

theorem patch_api_file_spec (lines : List String) (childTag package_name : String) :
    patch_api_file lines childTag package_name = (false, lines) ∨
    ((patch_api_file lines childTag package_name).1 = true ∧
      childImportLine package_name childTag ∈ (patch_api_file lines childTag package_name).2 ∧
      ∃ line ∈ (patch_api_file lines childTag package_name).2,
        strContains line (childPropertyText childTag) = true) := by
  by_cases h1 : (lines.any fun line =>
      strContains line (pyStrip (childImportLine package_name childTag))) = true
  · exact Or.inl (patch_api_file_skip h1)
  · simp only [Bool.not_eq_true] at h1
    cases hf : lines.findIdx? isClassDecl with
    | none => exact Or.inl (by simp [patch_api_file, h1, hf])
    | some ci =>
      cases hj : findIdxFrom (pyInsert lines (ci - 2) (childImportLine package_name childTag))
          (ci + 1) (fun l => strContains l "self.api_client = api_client") with
      | none => exact Or.inl (by simp [patch_api_file, h1, hf, hj])
      | some j =>
        have hres : patch_api_file lines childTag package_name =
            (true, pyInsert (pyInsert lines (ci - 2) (childImportLine package_name childTag))
              (j + 1) (String.mk (List.replicate (indentOf ((pyInsert lines (ci - 2)
                (childImportLine package_name childTag)).getD j "")) ' ') ++
                  childPropertyText childTag ++ "\n")) := by
          simp [patch_api_file, h1, hf, hj]
        refine Or.inr ⟨by rw [hres], ?_, ?_⟩
        · rw [hres]
          exact mem_pyInsert_of_mem (mem_pyInsert_self _ _ _) _ _
        · rw [hres]
          exact ⟨_, mem_pyInsert_self _ _ _, strContains_parts _ _ _⟩

theorem patch_client_skip {lines : List String} {p c : String}
    {rest : List (String × String)}
    (hm : (lines.findIdx? fun l => strContains l nestingMarker).isSome = true)
    (h : (lines.any fun l => strContains l (wireLine p c)) = true) :
    patch_llama_stack_client lines ((p, c) :: rest) = (false, lines) := by
  obtain ⟨ci, hci⟩ := Option.isSome_iff_exists.mp hm
  simp [patch_llama_stack_client, hci, h]

theorem patch_client_spec (lines : List String) (p c : String)
    (rest : List (String × String)) :
    patch_llama_stack_client lines ((p, c) :: rest) = (false, lines) ∨
    ((∃ l0 ∈ (patch_llama_stack_client lines ((p, c) :: rest)).2,
        strContains l0 nestingMarker = true) ∧
      ∃ lw ∈ (patch_llama_stack_client lines ((p, c) :: rest)).2,
        strContains lw (wireLine p c) = true) := by
  cases hm : lines.findIdx? (fun l => strContains l nestingMarker) with
  | none => exact Or.inl (by simp [patch_llama_stack_client, hm])
  | some ci =>
    by_cases h2 : (lines.any fun l => strContains l (wireLine p c)) = true
    · exact Or.inl (by simp [patch_llama_stack_client, hm, h2])
    · simp only [Bool.not_eq_true] at h2
      have hres : patch_llama_stack_client lines ((p, c) :: rest) =
          (true, insertBlock lines (ci + 1)
            ((String.mk (List.replicate (indentOf (lines.getD ci "")) ' ') ++
                "# Wire up parent-child API relationships\n") ::
              ((p, c) :: rest).map (fun pc => String.mk (List.replicate
                (indentOf (lines.getD ci "")) ' ') ++ wireLine pc.1 pc.2 ++ "\n"))) := by
        simp [patch_llama_stack_client, hm, h2]
      obtain ⟨l0, hl0, hpl0⟩ := exists_of_findIdx?_eq_some hm
      refine Or.inr ⟨⟨l0, ?_, by simpa using hpl0⟩, ?_⟩
      · rw [hres]
        exact mem_insertBlock_of_mem hl0 _ _
      · rw [hres]
        exact ⟨String.mk (List.replicate (indentOf (lines.getD ci "")) ' ') ++
            wireLine p c ++ "\n",
          mem_insertBlock_of_mem_block (by simp) _ _, strContains_parts _ _ _⟩

/- ===================== C9 ===================== -/

/-- C9: whenever `patch_api_file` reports failure (import already present, no
class declaration, or no transport binding), the file contents it leaves on
disk are exactly the input lines; and when it reports success the written
file contains both the verbatim child import line and the child property
statement — never one without the other. -/
theorem c9_patch_api_file_failure_no_write (lines : List String)
    (childTag package_name : String) :
    ((patch_api_file lines childTag package_name).1 = false →
      (patch_api_file lines childTag package_name).2 = lines) ∧
    ((patch_api_file lines childTag package_name).1 = true →
      childImportLine package_name childTag ∈ (patch_api_file lines childTag package_name).2 ∧
      ∃ line ∈ (patch_api_file lines childTag package_name).2,
        strContains line (childPropertyText childTag) = true) := by
  rcases patch_api_file_spec lines childTag package_name with h | ⟨ht, hi, hp⟩
  · refine ⟨fun _ => by rw [h], fun hc => ?_⟩
    rw [h] at hc
    cases hc
  · exact ⟨fun hc => Bool.noConfusion (hc.symm.trans ht), fun _ => ⟨hi, hp⟩⟩

/-- C9 (witness): the theorem applied to a file with no class declaration
(failure leaves the contents untouched) and to a minimal well-formed API
file (success inserts both lines). -/
theorem c9_patch_api_file_failure_no_write_witness :
    (patch_api_file ["x\n"] "x" "p").2 = ["x\n"] ∧
    (childImportLine "p" "x" ∈
        (patch_api_file ["class FooApi:\n", "    self.api_client = api_client\n"] "x" "p").2 ∧
      ∃ line ∈ (patch_api_file ["class FooApi:\n", "    self.api_client = api_client\n"] "x" "p").2,
        strContains line (childPropertyText "x") = true) :=
  ⟨(c9_patch_api_file_failure_no_write ["x\n"] "x" "p").1 (by decide),
   (c9_patch_api_file_failure_no_write
      ["class FooApi:\n", "    self.api_client = api_client\n"] "x" "p").2 (by decide)⟩

/- ===================== C2 ===================== -/

/-- C2 (counterexample): with an empty pair list the aggregate-client patch
skips its already-patched check and re-inserts the wire-up comment on every
run, so the second run changes the file again: the claim fails for a
one-root hierarchy such as `{A: {}}`, whose pair list is empty. -/
theorem c2_counterexample :
    (patch_llama_stack_client
        (patch_llama_stack_client [nestingMarker ++ "\n"] []).2 []).2
      ≠ (patch_llama_stack_client [nestingMarker ++ "\n"] []).2 := by
  decide

/-- C2 (amended): for every per-tag API file the second `patch_api_file` run
after a first run is a pure no-op (it reports `False` and leaves the
contents unchanged), and for every non-empty pair list the second
`patch_llama_stack_client` run after a first run is likewise a pure
no-op. -/
theorem c2_second_run_noop (apiLines : List String) (childTag package_name : String)
    (clientLines : List String) (pairs : List (String × String)) (hp : pairs ≠ []) :
    patch_api_file (patch_api_file apiLines childTag package_name).2 childTag package_name
        = (false, (patch_api_file apiLines childTag package_name).2) ∧
      patch_llama_stack_client (patch_llama_stack_client clientLines pairs).2 pairs
        = (false, (patch_llama_stack_client clientLines pairs).2) := by
  constructor
  · rcases patch_api_file_spec apiLines childTag package_name with h | ⟨_, hi, _⟩
    · rw [h]
      exact h
    · exact patch_api_file_skip
        (List.any_eq_true.mpr ⟨_, hi, strContains_pyStrip _⟩)
  · obtain ⟨p, c, rest, rfl⟩ : ∃ p c rest, pairs = (p, c) :: rest := by
      cases pairs with
      | nil => exact absurd rfl hp
      | cons pc r => exact ⟨pc.1, pc.2, r, rfl⟩
    rcases patch_client_spec clientLines p c rest with h | ⟨⟨l0, hl0, hpl0⟩, ⟨lw, hlw, hplw⟩⟩
    · rw [h]
      exact h
    · exact patch_client_skip
        (findIdx?_isSome_of_exists ⟨l0, hl0, by simpa using hpl0⟩)
        (List.any_eq_true.mpr ⟨lw, hlw, hplw⟩)

/-- C2 (witness): the amended theorem applied to a one-pair list and small
concrete files. -/
theorem c2_second_run_noop_witness :
    patch_api_file (patch_api_file [] "x" "p").2 "x" "p"
        = (false, (patch_api_file [] "x" "p").2) ∧
      patch_llama_stack_client (patch_llama_stack_client [] [("A", "B")]).2 [("A", "B")]
        = (false, (patch_llama_stack_client [] [("A", "B")]).2) :=
  c2_second_run_noop [] "x" "p" [] [("A", "B")] (by simp)

/- ============== tag-set and extraction-state helpers ============== -/

theorem lookupKey_setKey_ne {α : Type} (es : List (String × α)) {k key : String}
    (h : k ≠ key) (v : α) : lookupKey (setKey es key v) k = lookupKey es k := by
  have h' : ¬(key = k) := fun he => h he.symm
  induction es with
  | nil => simp [setKey, lookupKey, h']
  | cons e rest ih =>
    obtain ⟨k', w⟩ := e
    by_cases hk : k' = key
    · subst hk
      simp [setKey, lookupKey, h']
    · simp only [setKey, if_neg hk]
      by_cases hkk : k' = k
      · simp [lookupKey, hkk]
      · simp [lookupKey, hkk, ih]

theorem mem_addTagSet {s : List String} {t x : String} :
    x ∈ addTagSet s t ↔ x ∈ s ∨ x = t := by
  by_cases h : t ∈ s
  · simp only [addTagSet, if_pos h]
    exact ⟨Or.inl, fun hx => hx.elim id (fun he => he ▸ h)⟩
  · simp [addTagSet, h]

theorem mem_addTagsSet (ts : List String) (s : List String) (x : String) :
    x ∈ addTagsSet s ts ↔ x ∈ s ∨ x ∈ ts := by
  induction ts generalizing s with
  | nil => simp [addTagsSet]
  | cons t ts ih =>
    show x ∈ addTagsSet (addTagSet s t) ts ↔ _
    rw [ih, mem_addTagSet]
    simp only [List.mem_cons]
    tauto

theorem nodup_addTagSet {s : List String} (h : s.Nodup) (t : String) :
    (addTagSet s t).Nodup := by
  by_cases ht : t ∈ s
  · simpa [addTagSet, ht] using h
  · simp only [addTagSet, if_neg ht]
    refine List.Nodup.append h (List.nodup_singleton t) ?_
    intro a ha hb
    rw [List.mem_singleton] at hb
    exact ht (hb ▸ ha)

theorem nodup_addTagsSet (ts : List String) {s : List String} (h : s.Nodup) :
    (addTagsSet s ts).Nodup := by
  induction ts generalizing s with
  | nil => exact h
  | cons t ts ih => exact ih (nodup_addTagSet h t)

theorem get_leaf_tag_mem {tags : List String} {leaf : String}
    (h : get_leaf_tag tags = some leaf) : leaf ∈ tags := by
  unfold get_leaf_tag at h
  obtain ⟨ys, rfl⟩ := List.getLast?_eq_some_iff.mp h
  simp

theorem processOperation_inv (op : Op) {st : ExtractState}
    (h1 : ∀ x ∈ st.tags_with_endpoints, x ∈ st.all_tags) (h2 : st.all_tags.Nodup) :
    (∀ x ∈ (processOperation op st).2.tags_with_endpoints,
        x ∈ (processOperation op st).2.all_tags) ∧
      (processOperation op st).2.all_tags.Nodup := by
  unfold processOperation
  cases op.tags? with
  | none => exact ⟨h1, h2⟩
  | some tags =>
    by_cases he : tags.isEmpty
    · simp only [he, if_true]
      exact ⟨h1, h2⟩
    · simp only [he, Bool.false_eq_true, if_false]
      cases hl : get_leaf_tag tags with
      | none =>
        exact ⟨fun x hx => (mem_addTagsSet _ _ _).mpr (Or.inl (h1 x hx)),
          nodup_addTagsSet _ h2⟩
      | some leaf =>
        by_cases hleaf : leaf = ""
        · simp only [hleaf, ne_eq, not_true_eq_false, if_false]
          exact ⟨fun x hx => (mem_addTagsSet _ _ _).mpr (Or.inl (h1 x hx)),
            nodup_addTagsSet _ h2⟩
        · simp only [ne_eq, hleaf, not_false_eq_true, if_true]
          refine ⟨fun x hx => ?_, nodup_addTagsSet _ h2⟩
          rcases mem_addTagSet.mp hx with hx' | rfl
          · exact (mem_addTagsSet _ _ _).mpr (Or.inl (h1 x hx'))
          · exact (mem_addTagsSet _ _ _).mpr (Or.inr (get_leaf_tag_mem hl))

theorem foldl_methods_inv (ms : List String) (acc : List (String × Op) × ExtractState)
    (h1 : ∀ x ∈ acc.2.tags_with_endpoints, x ∈ acc.2.all_tags)
    (h2 : acc.2.all_tags.Nodup) :
    (∀ x ∈ (ms.foldl processMethodStep acc).2.tags_with_endpoints,
        x ∈ (ms.foldl processMethodStep acc).2.all_tags) ∧
      (ms.foldl processMethodStep acc).2.all_tags.Nodup := by
  induction ms generalizing acc with
  | nil => exact ⟨h1, h2⟩
  | cons m ms ih =>
    rw [List.foldl_cons]
    cases hlk : lookupKey acc.1 m with
    | none =>
      have hstep : processMethodStep acc m = acc := by
        unfold processMethodStep
        rw [hlk]
      rw [hstep]
      exact ih acc h1 h2
    | some op =>
      have hstep : processMethodStep acc m =
          (setKey acc.1 m (processOperation op acc.2).1, (processOperation op acc.2).2) := by
        unfold processMethodStep
        rw [hlk]
      rw [hstep]
      obtain ⟨g1, g2⟩ := processOperation_inv op h1 h2
      exact ih _ g1 g2

theorem processPathsPhase_inv (paths : List (String × List (String × Op)))
    (st : ExtractState)
    (h1 : ∀ x ∈ st.tags_with_endpoints, x ∈ st.all_tags) (h2 : st.all_tags.Nodup) :
    (∀ x ∈ (processPathsPhase paths st).2.tags_with_endpoints,
        x ∈ (processPathsPhase paths st).2.all_tags) ∧
      (processPathsPhase paths st).2.all_tags.Nodup := by
  induction paths generalizing st with
  | nil => exact ⟨h1, h2⟩
  | cons e rest ih =>
    obtain ⟨p, item⟩ := e
    have hg : (processPathsPhase ((p, item) :: rest) st).2
        = (processPathsPhase rest (processPathItem item st).2).2 := rfl
    rw [hg]
    obtain ⟨g1, g2⟩ := foldl_methods_inv httpMethods (item, st) h1 h2
    exact ih _ g1 g2

/- ===================== C5 ===================== -/

/-- C5: after the endpoint loop, `tags_with_endpoints` and
`tags_without_endpoints` partition `all_tags`: their union is `all_tags`
and their intersection is empty, for every input spec. -/
theorem c5_tag_sets_partition (paths : List (String × List (String × Op))) :
    (∀ t, t ∈ (processPathsPhase paths initialState).2.all_tags ↔
        (t ∈ (processPathsPhase paths initialState).2.tags_with_endpoints ∨
          t ∈ tagsWithoutOf (processPathsPhase paths initialState).2)) ∧
      ∀ t, ¬(t ∈ (processPathsPhase paths initialState).2.tags_with_endpoints ∧
          t ∈ tagsWithoutOf (processPathsPhase paths initialState).2) := by
  obtain ⟨hsub, -⟩ := processPathsPhase_inv paths initialState
    (by intro x hx; cases hx) (by constructor)
  constructor
  · intro t
    constructor
    · intro ht
      by_cases hw : t ∈ (processPathsPhase paths initialState).2.tags_with_endpoints
      · exact Or.inl hw
      · exact Or.inr (by simp [tagsWithoutOf, List.mem_filter, ht, hw])
    · rintro (hw | hwo)
      · exact hsub t hw
      · simp only [tagsWithoutOf, List.mem_filter] at hwo
        exact hwo.1
  · intro t ⟨hw, hwo⟩
    simp only [tagsWithoutOf, List.mem_filter, decide_eq_true_eq] at hwo
    exact hwo.2 hw

/- ===================== C4 ===================== -/

theorem processOperation_fst_state (op : Op) (st st' : ExtractState) :
    (processOperation op st).1 = (processOperation op st').1 := by
  unfold processOperation
  cases op.tags? with
  | none => rfl
  | some tags =>
    by_cases he : tags.isEmpty
    · simp [he]
    · simp only [he, Bool.false_eq_true, if_false]
      cases get_leaf_tag tags <;> rfl

theorem processMethodStep_lookup_ne {acc : List (String × Op) × ExtractState}
    {m m' : String} (h : m ≠ m') :
    lookupKey (processMethodStep acc m').1 m = lookupKey acc.1 m := by
  unfold processMethodStep
  cases hlk : lookupKey acc.1 m' with
  | none => rfl
  | some op => exact lookupKey_setKey_ne _ h _

theorem foldl_methods_lookup_not_mem (ms : List String)
    (acc : List (String × Op) × ExtractState) {m : String} (hm : m ∉ ms) :
    lookupKey (ms.foldl processMethodStep acc).1 m = lookupKey acc.1 m := by
  induction ms generalizing acc with
  | nil => rfl
  | cons m' ms ih =>
    have hne : m ≠ m' := fun he => hm (he ▸ List.mem_cons_self m' ms)
    have hnm : m ∉ ms := fun he => hm (List.mem_cons_of_mem _ he)
    rw [List.foldl_cons, ih _ hnm, processMethodStep_lookup_ne hne]

theorem foldl_methods_lookup (ms : List String) (hnd : ms.Nodup)
    (acc : List (String × Op) × ExtractState) {m : String} (hm : m ∈ ms) :
    lookupKey (ms.foldl processMethodStep acc).1 m =
      (lookupKey acc.1 m).map (fun op => (processOperation op initialState).1) := by
  induction ms generalizing acc with
  | nil => cases hm
  | cons m' ms ih =>
    rw [List.nodup_cons] at hnd
    rw [List.foldl_cons]
    rcases List.mem_cons.mp hm with rfl | hmem
    · rw [foldl_methods_lookup_not_mem ms _ hnd.1]
      unfold processMethodStep
      cases hlk : lookupKey acc.1 m with
      | none => simp [hlk]
      | some op =>
        simp only [hlk, lookupKey_setKey_self]
        exact congrArg some (processOperation_fst_state op acc.2 initialState)
    · have hne : m ≠ m' := fun he => hnd.1 (he ▸ hmem)
      rw [ih hnd.2 _ hmem, processMethodStep_lookup_ne hne]

theorem processPathItem_lookup (item : List (String × Op)) (st : ExtractState)
    {m : String} (hm : m ∈ httpMethods) :
    lookupKey (processPathItem item st).1 m =
      (lookupKey item m).map (fun op => (processOperation op initialState).1) :=
  foldl_methods_lookup httpMethods (by decide) (item, st) hm

theorem processOperation_fst_none {op : Op} (h : op.tags? = none) (st : ExtractState) :
    (processOperation op st).1 = op := by
  simp [processOperation, h]

theorem processOperation_fst_nil {op : Op} (h : op.tags? = some []) (st : ExtractState) :
    (processOperation op st).1 = op := by
  simp [processOperation, h]

theorem processOperation_fst_cons {op : Op} {ts : List String} {leaf : String}
    (h : op.tags? = some ts) (hl : ts.getLast? = some leaf) (st : ExtractState) :
    (processOperation op st).1 =
      { op with tags? := some (if leaf ≠ "" then [leaf] else []) } := by
  have hg : get_leaf_tag ts = some leaf := hl
  cases ts with
  | nil => cases hl
  | cons a as => simp [processOperation, h, hg]

/-- C4 (counterexample): an operation whose tag list is `["a", ""]` has its
tags collapsed to the empty list, not to `[""]` — the Python code writes
`[leaf] if leaf_tag else []` and the empty-string leaf is falsy, so the
"single remaining tag equals the last element" part of the claim fails. -/
theorem c4_counterexample :
    (lookupKey (processPathItem [("get",
        { tags? := some ["a", ""], summary? := none, description? := none,
          operationId? := none, responses? := none, xOperationName? := none,
          xUnwrapListResponse := false })] initialState).1 "get").map Op.tags?
      = some (some []) ∧ (["a", ""].getLast? = some "") ∧
      some ([] : List String) ≠ some [""] := by
  refine ⟨?_, by decide, by decide⟩
  rfl

/-- C4 (amended): after the endpoint loop, every processed operation's tag
list has length at most 1; when the original tag list is non-empty with a
non-empty-string last element, the collapsed list is exactly `[last]`; and
re-running the collapse on an operation already carrying a single
non-empty-string tag leaves the operation unchanged. -/
theorem c4_tags_collapsed (item : List (String × Op)) (st : ExtractState)
    (m : String) (hm : m ∈ httpMethods) (op : Op) (hop : lookupKey item m = some op) :
    ∃ op', lookupKey (processPathItem item st).1 m = some op' ∧
      ((op'.tags?.getD []).length ≤ 1) ∧
      (∀ ts leaf, op.tags? = some ts → ts.getLast? = some leaf → leaf ≠ "" →
        op'.tags? = some [leaf]) ∧
      (∀ t, t ≠ "" → op.tags? = some [t] → op' = op) := by
  refine ⟨(processOperation op initialState).1, ?_, ?_, ?_, ?_⟩
  · rw [processPathItem_lookup item st hm, hop]
    rfl
  · cases hto : op.tags? with
    | none => simp [processOperation_fst_none hto, hto]
    | some ts =>
      cases hts : ts.getLast? with
      | none =>
        rw [List.getLast?_eq_none_iff] at hts
        subst hts
        simp [processOperation_fst_nil hto, hto]
      | some leaf =>
        rw [processOperation_fst_cons hto hts]
        by_cases hleaf : leaf = "" <;> simp [hleaf]
  · intro ts leaf hts hlast hleaf
    rw [processOperation_fst_cons hts hlast]
    simp [hleaf]
  · intro t ht hsingle
    rw [@processOperation_fst_cons op [t] t hsingle rfl initialState]
    simp only [ne_eq, ht, not_false_eq_true, if_true]
    cases op with
    | mk a b c d e f g =>
      have ha : a = some [t] := hsingle
      subst ha
      rfl

/-- C4 (witness): the amended theorem applied to a concrete path item with
tags `["x", "y"]`. -/
theorem c4_tags_collapsed_witness :
    ∃ op', lookupKey (processPathItem [("get",
        { tags? := some ["x", "y"], summary? := none, description? := none,
          operationId? := none, responses? := none, xOperationName? := none,
          xUnwrapListResponse := false })] initialState).1 "get" = some op' ∧
      ((op'.tags?.getD []).length ≤ 1) ∧
      (∀ ts leaf, (some ["x", "y"] : Option (List String)) = some ts →
        ts.getLast? = some leaf → leaf ≠ "" → op'.tags? = some [leaf]) ∧
      (∀ t, t ≠ "" → (some ["x", "y"] : Option (List String)) = some [t] →
        op' = { tags? := some ["x", "y"], summary? := none, description? := none,
                operationId? := none, responses? := none, xOperationName? := none,
                xUnwrapListResponse := false }) :=
  c4_tags_collapsed
    [("get", { tags? := some ["x", "y"], summary? := none, description? := none,
               operationId? := none, responses? := none, xOperationName? := none,
               xUnwrapListResponse := false })]
    initialState "get" (by decide)
    { tags? := some ["x", "y"], summary? := none, description? := none,
      operationId? := none, responses? := none, xOperationName? := none,
      xUnwrapListResponse := false }
    (by rfl)

/- ============== sorting and dummy-endpoint helpers ============== -/

theorem sortStrings_perm (l : List String) : (sortStrings l).Perm l :=
  List.perm_insertionSort strLe l

theorem mem_sortStrings {l : List String} {t : String} :
    t ∈ sortStrings l ↔ t ∈ l :=
  (sortStrings_perm l).mem_iff

theorem nodup_sortStrings {l : List String} (h : l.Nodup) :
    (sortStrings l).Nodup :=
  ((sortStrings_perm l).nodup_iff).mpr h

theorem ltCharList_iff_lt (as bs : List Char) : ltCharList as bs = true ↔ as < bs := by
  induction as generalizing bs with
  | nil =>
    cases bs with
    | nil =>
      simp only [ltCharList, Bool.false_eq_true, false_iff]
      intro h
      cases h
    | cons b bs =>
      simp only [ltCharList, true_iff]
      exact List.Lex.nil
  | cons a as ih =>
    cases bs with
    | nil =>
      simp only [ltCharList, Bool.false_eq_true, false_iff]
      intro h
      cases h
    | cons b bs =>
      by_cases hab : a < b
      · simp only [ltCharList, if_pos hab, true_iff]
        exact List.Lex.rel hab
      · by_cases hba : b < a
        · simp only [ltCharList, if_neg hab, if_pos hba, Bool.false_eq_true, false_iff]
          intro h
          cases h with
          | rel h' => exact hab h'
          | cons h' => exact lt_irrefl a hba
        · have hconn : a = b := le_antisymm (not_lt.mp hba) (not_lt.mp hab)
          subst hconn
          simp only [ltCharList, if_neg hab, if_neg hba]
          rw [ih]
          constructor
          · exact fun h => List.Lex.cons h
          · intro h
            cases h with
            | rel h' => exact absurd h' hab
            | cons h' => exact h'

theorem ltStr_iff_lt (a b : String) : ltStr a b = true ↔ a < b := by
  rw [ltStr, ltCharList_iff_lt]
  exact String.lt_iff_toList_lt.symm

theorem strLe_iff_le (a b : String) : strLe a b ↔ a ≤ b := by
  unfold strLe
  constructor
  · intro h hlt
    rw [(ltStr_iff_lt b a).mpr hlt] at h
    cases h
  · intro h
    cases hlt : ltStr b a with
    | false => rfl
    | true => exact absurd ((ltStr_iff_lt b a).mp hlt) h

theorem isTotal_strLe : IsTotal String strLe :=
  ⟨fun a b => by
    rw [strLe_iff_le, strLe_iff_le]
    exact le_total a b⟩

theorem isTrans_strLe : IsTrans String strLe :=
  ⟨fun a b c hab hbc => by
    rw [strLe_iff_le] at hab hbc ⊢
    exact le_trans hab hbc⟩

theorem isAntisymm_strLe : IsAntisymm String strLe :=
  ⟨fun a b hab hba => by
    rw [strLe_iff_le] at hab hba
    exact le_antisymm hab hba⟩

theorem sorted_sortStrings (l : List String) : List.Sorted strLe (sortStrings l) :=
  @List.sorted_insertionSort String strLe _ isTotal_strLe isTrans_strLe l

theorem dummyPathOf_ne {a b : String} (h : slugOfTag a ≠ slugOfTag b) :
    dummyPathOf a ≠ dummyPathOf b := by
  intro he
  apply h
  have hd := congrArg String.data he
  rw [dummyPathOf, dummyPathOf, String.data_append, String.data_append] at hd
  exact String.ext (List.append_cancel_left hd)

theorem addDummy_fold_lookup_ne (tags : List String)
    (ps : List (String × List (String × Op))) {key : String}
    (h : ∀ tag ∈ tags, dummyPathOf tag ≠ key) :
    lookupKey (tags.foldl
        (fun ps tag => setKey ps (dummyPathOf tag) [("get", dummy_operation tag)]) ps) key
      = lookupKey ps key := by
  induction tags generalizing ps with
  | nil => rfl
  | cons a as ih =>
    rw [List.foldl_cons, ih _ (fun tag htag => h tag (List.mem_cons_of_mem _ htag))]
    exact lookupKey_setKey_ne _ (fun he => h a (List.mem_cons_self a as) he.symm) _

theorem addDummy_fold_lookup_mem (tags : List String) (hnd : tags.Nodup)
    (ps : List (String × List (String × Op))) {t : String} (ht : t ∈ tags)
    (hinj : ∀ t' ∈ tags, t' ≠ t → dummyPathOf t' ≠ dummyPathOf t) :
    lookupKey (tags.foldl
        (fun ps tag => setKey ps (dummyPathOf tag) [("get", dummy_operation tag)]) ps)
        (dummyPathOf t)
      = some [("get", dummy_operation t)] := by
  induction tags generalizing ps with
  | nil => cases ht
  | cons a as ih =>
    rw [List.nodup_cons] at hnd
    rw [List.foldl_cons]
    rcases List.mem_cons.mp ht with rfl | hmem
    · rw [addDummy_fold_lookup_ne as _ (fun tag htag =>
        hinj tag (List.mem_cons_of_mem _ htag) (fun he => hnd.1 (he ▸ htag)))]
      exact lookupKey_setKey_self _ _ _
    · exact ih hnd.2 _ hmem
        (fun t' ht' hne => hinj t' (List.mem_cons_of_mem _ ht') hne)

/- ===================== C3 ===================== -/

/-- C3 (counterexample): the tags `"a b"` and `"a_b"` (both structural, so
both in `tags_without_endpoints`) slug to the same dummy path
`/dummy/a-b`; the later assignment (for `"a_b"`, which sorts after
`"a b"`) overwrites the earlier one, so the processed spec holds no
placeholder tagged `["a b"]` and the claim fails for the tag `"a b"`. -/
theorem c3_counterexample :
    "a b" ∈ tagsWithoutOf (processPathsPhase
        [("/p1", [("get", Op.mk (some ["a b", "x"]) none none none none none false)]),
         ("/p2", [("get", Op.mk (some ["a_b", "y"]) none none none none none false)])]
        initialState).2 ∧
    dummyPathOf "a b" = "/dummy/a-b" ∧
    (lookupKey (processOpenapiPaths
        [("/p1", [("get", Op.mk (some ["a b", "x"]) none none none none none false)]),
         ("/p2", [("get", Op.mk (some ["a_b", "y"]) none none none none none false)])])
        "/dummy/a-b").map (fun item => (lookupKey item "get").map Op.tags?)
      = some (some (some ["a_b"])) ∧
    (["a_b"] : List String) ≠ ["a b"] := by
  refine ⟨by decide, by decide, ?_, by decide⟩
  rfl

/-- C3 (amended): for every input spec and every tag `t` of
`tags_without_endpoints` whose slug differs from the slug of every other
tag of `tags_without_endpoints`, the processed paths table maps
`/dummy/slug(t)` to exactly the synthesized placeholder item for `t`:
a single `GET` operation whose tags list is `[t]` and whose responses
carry a `200` entry. -/
theorem c3_dummy_endpoint (paths : List (String × List (String × Op))) (t : String)
    (ht : t ∈ tagsWithoutOf (processPathsPhase paths initialState).2)
    (hinj : ∀ t' ∈ tagsWithoutOf (processPathsPhase paths initialState).2,
      t' ≠ t → slugOfTag t' ≠ slugOfTag t) :
    lookupKey (processOpenapiPaths paths) (dummyPathOf t)
      = some [("get", dummy_operation t)] := by
  have hnodup : (tagsWithoutOf (processPathsPhase paths initialState).2).Nodup := by
    have h2 := (processPathsPhase_inv paths initialState
      (by intro x hx; cases hx) (by constructor)).2
    exact h2.filter _
  unfold processOpenapiPaths addDummyEndpoints
  apply addDummy_fold_lookup_mem _ (nodup_sortStrings hnodup) _ (mem_sortStrings.mpr ht)
  intro t' ht' hne
  exact dummyPathOf_ne (hinj t' (mem_sortStrings.mp ht') hne)

/-- C3 (witness): the amended theorem applied to a one-endpoint spec whose
single structural tag is `"A"`. -/
theorem c3_dummy_endpoint_witness :
    lookupKey (processOpenapiPaths
        [("/p", [("get", Op.mk (some ["A", "x"]) none none none none none false)])])
        (dummyPathOf "A")
      = some [("get", dummy_operation "A")] :=
  c3_dummy_endpoint
    [("/p", [("get", Op.mk (some ["A", "x"]) none none none none none false)])]
    "A" (by decide) (by decide)

/- ===================== C10 ===================== -/

/-- C10: the dummy-endpoint loop iterates `sorted(tags_without_endpoints)`,
so the tags (and hence the added dummy paths) are visited in strictly
ascending lexicographic order; and the sorted sequence — and with it the
sequence of added dummy paths — depends only on the membership of the set,
not on any iteration order of its list representation. -/
theorem c10_dummy_paths_order (paths : List (String × List (String × Op))) :
    List.Pairwise (· < ·)
        (sortStrings (tagsWithoutOf (processPathsPhase paths initialState).2)) ∧
      ∀ l1 l2 : List String, l1.Nodup → l2.Nodup → (∀ t, t ∈ l1 ↔ t ∈ l2) →
        (sortStrings l1).map dummyPathOf = (sortStrings l2).map dummyPathOf := by
  constructor
  · have hnodup : (tagsWithoutOf (processPathsPhase paths initialState).2).Nodup := by
      have h2 := (processPathsPhase_inv paths initialState
        (by intro x hx; cases hx) (by constructor)).2
      exact h2.filter _
    have hs := sorted_sortStrings (tagsWithoutOf (processPathsPhase paths initialState).2)
    have hnd := nodup_sortStrings hnodup
    exact (hs.and hnd).imp
      (fun hab => lt_of_le_of_ne ((strLe_iff_le _ _).mp hab.1) hab.2)
  · intro l1 l2 h1 h2 hmem
    have hp : l1.Perm l2 := (List.perm_ext_iff_of_nodup h1 h2).mpr hmem
    have hp2 : (sortStrings l1).Perm (sortStrings l2) :=
      (sortStrings_perm l1).trans (hp.trans (sortStrings_perm l2).symm)
    have heq : sortStrings l1 = sortStrings l2 :=
      @List.eq_of_perm_of_sorted String strLe isAntisymm_strLe _ _ hp2
        (sorted_sortStrings l1) (sorted_sortStrings l2)
    rw [heq]

/-- C10 (witness): the theorem applied to the empty spec, and its
determinism part applied to two enumerations of the set `{a, b}`. -/
theorem c10_dummy_paths_order_witness :
    List.Pairwise (· < ·)
        (sortStrings (tagsWithoutOf (processPathsPhase [] initialState).2)) ∧
      (sortStrings ["b", "a"]).map dummyPathOf
        = (sortStrings ["a", "b"]).map dummyPathOf :=
  ⟨(c10_dummy_paths_order []).1,
   (c10_dummy_paths_order []).2 ["b", "a"] ["a", "b"] (by decide) (by decide)
     (fun t => by
       simp only [List.mem_cons, List.not_mem_nil, or_false]
       tauto)⟩

/- ============== size bounds for the schema walk ============== -/

theorem one_le_valSize (v : Val) : 1 ≤ valSize v := by
  cases v <;> simp [valSize]

theorem one_le_listVS (xs : List Val) : 1 ≤ listVS xs := by
  cases xs with
  | nil => simp [listVS]
  | cons a rest =>
    simp only [listVS]
    omega

theorem one_le_entriesVS (es : List (String × Val)) : 1 ≤ entriesVS es := by
  cases es with
  | nil => simp [entriesVS]
  | cons e rest =>
    obtain ⟨k, v⟩ := e
    simp only [entriesVS]
    omega

theorem mem_entriesVS {es : List (String × Val)} {k : String} {v : Val}
    (h : (k, v) ∈ es) : valSize v + 1 ≤ entriesVS es := by
  induction es with
  | nil => cases h
  | cons e rest ih =>
    obtain ⟨k', v'⟩ := e
    rcases List.mem_cons.mp h with he | hm
    · injection he with h1 h2
      subst h2
      simp only [entriesVS]
      omega
    · have := ih hm
      have h1 := one_le_valSize v'
      simp only [entriesVS]
      omega

theorem mem_listVS {xs : List Val} {x : Val} (h : x ∈ xs) :
    valSize x + 1 ≤ listVS xs := by
  induction xs with
  | nil => cases h
  | cons a rest ih =>
    rcases List.mem_cons.mp h with rfl | hm
    · simp only [listVS]
      omega
    · have := ih hm
      have h1 := one_le_valSize a
      simp only [listVS]
      omega

theorem lookupKey_valSize {kvs : List (String × Val)} {k : String} {v : Val}
    (h : lookupKey kvs k = some v) : valSize v + 2 ≤ entriesVS kvs := by
  induction kvs with
  | nil => cases h
  | cons e rest ih =>
    obtain ⟨k', w⟩ := e
    rw [lookupKey] at h
    by_cases hk : k' = k
    · rw [if_pos hk] at h
      injection h with h
      subst h
      have := one_le_entriesVS rest
      simp only [entriesVS]
      omega
    · rw [if_neg hk] at h
      have := ih h
      have h1 := one_le_valSize w
      simp only [entriesVS]
      omega

theorem lookupKey_two_valSize {kvs : List (String × Val)} {a b : String} {x y : Val}
    (ha : lookupKey kvs a = some x) (hb : lookupKey kvs b = some y) (hab : a ≠ b) :
    valSize x + valSize y + 3 ≤ entriesVS kvs := by
  induction kvs with
  | nil => cases ha
  | cons e rest ih =>
    obtain ⟨k, w⟩ := e
    rw [lookupKey] at ha hb
    by_cases hka : k = a
    · rw [if_pos hka] at ha
      injection ha with ha
      subst ha
      rw [if_neg (fun he => hab (hka.symm.trans he))] at hb
      have := lookupKey_valSize hb
      simp only [entriesVS]
      omega
    · rw [if_neg hka] at ha
      by_cases hkb : k = b
      · rw [if_pos hkb] at hb
        injection hb with hb
        subst hb
        have := lookupKey_valSize ha
        simp only [entriesVS]
        omega
      · rw [if_neg hkb] at hb
        have := ih ha hb
        have h1 := one_le_valSize w
        simp only [entriesVS]
        omega

theorem entriesVS_filter_le (q : String × Val → Bool) (kvs : List (String × Val)) :
    entriesVS (kvs.filter q) ≤ entriesVS kvs := by
  induction kvs with
  | nil => simp
  | cons e rest ih =>
    obtain ⟨k, v⟩ := e
    rw [List.filter_cons]
    by_cases hq : q (k, v) = true
    · rw [if_pos hq]
      simp only [entriesVS]
      omega
    · rw [if_neg hq]
      have h1 := one_le_valSize v
      simp only [entriesVS]
      omega

theorem filter_oneOf_entriesVS {kvs : List (String × Val)} {w : Val}
    (h : lookupKey kvs "oneOf" = some w) :
    entriesVS (kvs.filter
        (fun kv => !(kv.1 = "oneOf" || kv.1 = "type" || kv.1 = "enum")))
      + valSize w + 1 ≤ entriesVS kvs := by
  induction kvs with
  | nil => cases h
  | cons e rest ih =>
    obtain ⟨k, v⟩ := e
    rw [lookupKey] at h
    by_cases hk : k = "oneOf"
    · rw [if_pos hk] at h
      injection h with h
      subst h
      rw [List.filter_cons, if_neg (by simp [hk])]
      have := entriesVS_filter_le
        (fun kv => !(kv.1 = "oneOf" || kv.1 = "type" || kv.1 = "enum")) rest
      simp only [entriesVS]
      omega
    · rw [if_neg hk] at h
      have := ih h
      rw [List.filter_cons]
      by_cases hq : (!(decide (k = "oneOf") || decide (k = "type") || decide (k = "enum"))) = true
      · rw [if_pos hq]
        simp only [entriesVS]
        omega
      · rw [if_neg hq]
        have h1 := one_le_valSize v
        simp only [entriesVS]
        omega

theorem isConstItem_exists {m : Val} (h : isConstItem m = true) :
    ∃ mkvs c, m = Val.vobj mkvs ∧ lookupKey mkvs "const" = some c := by
  cases m with
  | vobj mkvs =>
    unfold isConstItem at h
    rw [Option.isSome_iff_exists] at h
    obtain ⟨c, hc⟩ := h
    exact ⟨mkvs, c, rfl, hc⟩
  | vnull => cases h
  | vbool b => cases h
  | vint i => cases h
  | vstr s => cases h
  | vlist xs => cases h

theorem getConstVal_bound {m : Val} (h : isConstItem m = true) :
    valSize (getConstVal m) + 3 ≤ valSize m := by
  obtain ⟨mkvs, c, rfl, hc⟩ := isConstItem_exists h
  have := lookupKey_valSize hc
  simp [getConstVal, hc, valSize]
  omega

theorem map_getConst_listVS {l : List Val} (h : l.all isConstItem = true) :
    listVS (l.map getConstVal) ≤ listVS l := by
  induction l with
  | nil => simp
  | cons m rest ih =>
    rw [List.all_cons, Bool.and_eq_true] at h
    have h1 := getConstVal_bound h.1
    have h2 := ih h.2
    simp [listVS]
    omega

theorem getTypeVal_bound {m : Val} (h : isConstItem m = true) :
    valSize (getTypeVal m) + valSize (getConstVal m) + 1 ≤ valSize m := by
  obtain ⟨mkvs, c, rfl, hc⟩ := isConstItem_exists h
  cases ht : lookupKey mkvs "type" with
  | none =>
    have := lookupKey_valSize hc
    simp [getTypeVal, getConstVal, ht, hc, valSize]
    omega
  | some t =>
    have hne : "const" ≠ "type" := by decide
    have := lookupKey_two_valSize hc ht hne
    simp [getTypeVal, getConstVal, ht, hc, valSize]
    omega

theorem convertObjEntries_of_none {kvs : List (String × Val)}
    (hoo : lookupKey kvs "oneOf" = none) : convertObjEntries kvs = some kvs := by
  simp only [convertObjEntries, hoo]

theorem convertObjEntries_of_nonlist {kvs : List (String × Val)} {w : Val}
    (hoo : lookupKey kvs "oneOf" = some w) (hnl : ∀ xs, w ≠ Val.vlist xs) :
    convertObjEntries kvs = some kvs := by
  cases w with
  | vlist xs => exact absurd rfl (hnl xs)
  | vnull => simp only [convertObjEntries, hoo]
  | vbool b => simp only [convertObjEntries, hoo]
  | vint i => simp only [convertObjEntries, hoo]
  | vstr s => simp only [convertObjEntries, hoo]
  | vobj o => simp only [convertObjEntries, hoo]

theorem convertObjEntries_of_notall {kvs : List (String × Val)} {one_of : List Val}
    (hoo : lookupKey kvs "oneOf" = some (Val.vlist one_of))
    (hall : one_of.all isConstItem = false) : convertObjEntries kvs = some kvs := by
  simp only [convertObjEntries, hoo]
  rw [if_neg (by rw [hall]; exact Bool.false_ne_true)]

theorem convertObjEntries_of_nil {kvs : List (String × Val)}
    (hoo : lookupKey kvs "oneOf" = some (Val.vlist [])) :
    convertObjEntries kvs = none := by
  simp only [convertObjEntries, hoo]
  rw [if_pos (by rfl)]

theorem convertObjEntries_of_all {kvs : List (String × Val)} {first : Val} {rest2 : List Val}
    (hoo : lookupKey kvs "oneOf" = some (Val.vlist (first :: rest2)))
    (hall : (first :: rest2).all isConstItem = true) :
    convertObjEntries kvs =
      some (("type", getTypeVal first)
        :: ("enum", Val.vlist ((first :: rest2).map getConstVal))
        :: kvs.filter (fun kv => !(kv.1 = "oneOf" || kv.1 = "type" || kv.1 = "enum"))) := by
  simp only [convertObjEntries, hoo]
  rw [if_pos hall]

theorem convertObjEntries_entriesVS {kvs kvs2 : List (String × Val)}
    (h : convertObjEntries kvs = some kvs2) : entriesVS kvs2 ≤ entriesVS kvs := by
  cases hoo : lookupKey kvs "oneOf" with
  | none =>
    rw [convertObjEntries_of_none hoo] at h
    injection h with h
    subst h
    exact le_refl _
  | some w =>
    by_cases hwl : ∃ one_of, w = Val.vlist one_of
    · obtain ⟨one_of, rfl⟩ := hwl
      cases one_of with
      | nil =>
        rw [convertObjEntries_of_nil hoo] at h
        cases h
      | cons first rest2 =>
        cases hall : (first :: rest2).all isConstItem with
        | false =>
          rw [convertObjEntries_of_notall hoo hall] at h
          injection h with h
          subst h
          exact le_refl _
        | true =>
          rw [convertObjEntries_of_all hoo hall] at h
          injection h with h
          subst h
          rw [List.all_cons, Bool.and_eq_true] at hall
          have hT := getTypeVal_bound hall.1
          have hmap := map_getConst_listVS hall.2
          have hfil := filter_oneOf_entriesVS hoo
          simp only [valSize, entriesVS, listVS, List.map_cons] at hfil ⊢
          omega
    · have hnl : ∀ xs, w ≠ Val.vlist xs := fun xs hx => hwl ⟨xs, hx⟩
      rw [convertObjEntries_of_nonlist hoo hnl] at h
      injection h with h
      subst h
      exact le_refl _

theorem convertStep_entriesVS {kvs kvs2 : List (String × Val)}
    (h : (if (lookupKey kvs "oneOf").isSome then convertObjEntries kvs else some kvs)
      = some kvs2) : entriesVS kvs2 ≤ entriesVS kvs := by
  by_cases hoo : (lookupKey kvs "oneOf").isSome = true
  · rw [if_pos hoo] at h
    exact convertObjEntries_entriesVS h
  · rw [if_neg hoo] at h
    injection h with h
    subst h
    exact le_refl _

/- ============== fuel stability and the recursive equations ============== -/

theorem fixFuel_stable : ∀ n : Nat,
    (∀ m v, valSize v ≤ n → n ≤ m → fixFuel n v = fixFuel m v) ∧
    (∀ m xs, listVS xs ≤ n → n ≤ m → fixListFuel n xs = fixListFuel m xs) ∧
    (∀ m es, entriesVS es ≤ n → n ≤ m → fixEntriesFuel n es = fixEntriesFuel m es) := by
  intro n
  induction n with
  | zero =>
    refine ⟨fun m v hv _ => absurd hv (by have := one_le_valSize v; omega),
      fun m xs hxs _ => absurd hxs (by have := one_le_listVS xs; omega),
      fun m es hes _ => absurd hes (by have := one_le_entriesVS es; omega)⟩
  | succ n ih =>
    obtain ⟨ihv, ihl, ihe⟩ := ih
    refine ⟨?_, ?_, ?_⟩
    · intro m v hv hm
      obtain ⟨m', rfl⟩ : ∃ m', m = m' + 1 := ⟨m - 1, by omega⟩
      cases v with
      | vobj kvs =>
        have hszk : entriesVS kvs ≤ n := by
          simp [valSize] at hv
          omega
        cases hstep : (if (lookupKey kvs "oneOf").isSome then convertObjEntries kvs
            else some kvs) with
        | none => simp [fixFuel, hstep]
        | some kvs2 =>
          have hsz := convertStep_entriesVS hstep
          simp only [fixFuel, hstep]
          rw [ihe m' kvs2 (le_trans hsz hszk) (by omega)]
      | vlist xs =>
        have hszl : listVS xs ≤ n := by
          simp [valSize] at hv
          omega
        simp only [fixFuel]
        rw [ihl m' xs hszl (by omega)]
      | vnull => rfl
      | vbool b => rfl
      | vint i => rfl
      | vstr s => rfl
    · intro m xs hxs hm
      obtain ⟨m', rfl⟩ : ∃ m', m = m' + 1 := ⟨m - 1, by omega⟩
      cases xs with
      | nil => rfl
      | cons x rest =>
        have hx : valSize x ≤ n := by
          have := one_le_listVS rest
          simp [listVS] at hxs
          omega
        have hr : listVS rest ≤ n := by
          have := one_le_valSize x
          simp [listVS] at hxs
          omega
        simp only [fixListFuel]
        rw [ihv m' x hx (by omega), ihl m' rest hr (by omega)]
    · intro m es hes hm
      obtain ⟨m', rfl⟩ : ∃ m', m = m' + 1 := ⟨m - 1, by omega⟩
      cases es with
      | nil => rfl
      | cons e rest =>
        obtain ⟨k, v⟩ := e
        have hx : valSize v ≤ n := by
          have := one_le_entriesVS rest
          simp only [entriesVS] at hes
          omega
        have hr : entriesVS rest ≤ n := by
          have := one_le_valSize v
          simp only [entriesVS] at hes
          omega
        simp only [fixEntriesFuel]
        rw [ihv m' v hx (by omega), ihe m' rest hr (by omega)]

theorem fixFuel_eq_fix {v : Val} {n : Nat} (h : valSize v ≤ n) :
    fixFuel n v = fix_oneof_const_schemas v := by
  unfold fix_oneof_const_schemas
  exact ((fixFuel_stable (valSize v)).1 n v le_rfl h).symm

theorem fixEntriesFuel_eq_fixVals {es : List (String × Val)} {n : Nat}
    (h : entriesVS es ≤ n) : fixEntriesFuel n es = fixVals es := by
  induction es generalizing n with
  | nil =>
    obtain ⟨n', rfl⟩ : ∃ n', n = n' + 1 :=
      ⟨n - 1, by have := one_le_entriesVS ([] : List (String × Val)); omega⟩
    rfl
  | cons e rest ih =>
    obtain ⟨k, v⟩ := e
    obtain ⟨n', rfl⟩ : ∃ n', n = n' + 1 :=
      ⟨n - 1, by have := one_le_entriesVS ((k, v) :: rest); omega⟩
    have hv : valSize v ≤ n' := by
      have := one_le_entriesVS rest
      simp only [entriesVS] at h
      omega
    have hr : entriesVS rest ≤ n' := by
      have := one_le_valSize v
      simp only [entriesVS] at h
      omega
    simp only [fixEntriesFuel, fixVals]
    rw [fixFuel_eq_fix hv, ih hr]

theorem fixListFuel_eq_fixElems {xs : List Val} {n : Nat}
    (h : listVS xs ≤ n) : fixListFuel n xs = fixElems xs := by
  induction xs generalizing n with
  | nil =>
    obtain ⟨n', rfl⟩ : ∃ n', n = n' + 1 :=
      ⟨n - 1, by have := one_le_listVS ([] : List Val); omega⟩
    rfl
  | cons x rest ih =>
    obtain ⟨n', rfl⟩ : ∃ n', n = n' + 1 :=
      ⟨n - 1, by have := one_le_listVS (x :: rest); omega⟩
    have hx : valSize x ≤ n' := by
      have := one_le_listVS rest
      simp [listVS] at h
      omega
    have hr : listVS rest ≤ n' := by
      have := one_le_valSize x
      simp [listVS] at h
      omega
    simp only [fixListFuel, fixElems]
    rw [fixFuel_eq_fix hx, ih hr]

theorem fix_obj_eq (kvs : List (String × Val)) :
    fix_oneof_const_schemas (Val.vobj kvs) =
      (match (if (lookupKey kvs "oneOf").isSome then convertObjEntries kvs
          else some kvs) with
        | none => none
        | some kvs2 => (fixVals kvs2).map Val.vobj) := by
  have hv : valSize (Val.vobj kvs) = entriesVS kvs + 1 := by
    simp [valSize]
    omega
  unfold fix_oneof_const_schemas
  rw [hv]
  cases hstep : (if (lookupKey kvs "oneOf").isSome then convertObjEntries kvs
      else some kvs) with
  | none => simp [fixFuel, hstep]
  | some kvs2 =>
    simp only [fixFuel, hstep]
    rw [fixEntriesFuel_eq_fixVals (convertStep_entriesVS hstep)]

theorem fix_list_eq (xs : List Val) :
    fix_oneof_const_schemas (Val.vlist xs) = (fixElems xs).map Val.vlist := by
  have hv : valSize (Val.vlist xs) = listVS xs + 1 := by
    simp [valSize]
    omega
  unfold fix_oneof_const_schemas
  rw [hv]
  simp only [fixFuel]
  rw [fixListFuel_eq_fixElems le_rfl]

/- ============== destructors and pointwise lemmas for the fixpoint walk ============== -/

theorem fix_obj_dest {kvs : List (String × Val)} {y : Val}
    (h : fix_oneof_const_schemas (Val.vobj kvs) = some y) :
    ∃ kvs2 fs,
      (if (lookupKey kvs "oneOf").isSome then convertObjEntries kvs else some kvs)
          = some kvs2 ∧
        fixVals kvs2 = some fs ∧ y = Val.vobj fs := by
  rw [fix_obj_eq] at h
  cases hstep : (if (lookupKey kvs "oneOf").isSome then convertObjEntries kvs
      else some kvs) with
  | none =>
    rw [hstep] at h
    cases h
  | some kvs2 =>
    rw [hstep] at h
    have h' : (fixVals kvs2).map Val.vobj = some y := h
    cases hfv : fixVals kvs2 with
    | none =>
      rw [hfv] at h'
      cases h'
    | some fs =>
      rw [hfv] at h'
      injection h' with h'
      exact ⟨kvs2, fs, rfl, hfv, h'.symm⟩

theorem fix_list_dest {xs : List Val} {y : Val}
    (h : fix_oneof_const_schemas (Val.vlist xs) = some y) :
    ∃ ys, fixElems xs = some ys ∧ y = Val.vlist ys := by
  rw [fix_list_eq] at h
  cases hfe : fixElems xs with
  | none =>
    rw [hfe] at h
    cases h
  | some ys =>
    rw [hfe] at h
    injection h with h
    exact ⟨ys, rfl, h.symm⟩

theorem fixVals_lookup_none {es fs : List (String × Val)} (h : fixVals es = some fs)
    {k : String} (hk : lookupKey es k = none) : lookupKey fs k = none := by
  induction es generalizing fs with
  | nil =>
    injection h with h
    subst h
    exact hk
  | cons e rest ih =>
    obtain ⟨k', v⟩ := e
    rw [lookupKey] at hk
    by_cases hkk : k' = k
    · rw [if_pos hkk] at hk
      cases hk
    · rw [if_neg hkk] at hk
      rw [fixVals] at h
      cases hfv : fix_oneof_const_schemas v with
      | none =>
        rw [hfv] at h
        cases h
      | some w =>
        rw [hfv] at h
        cases hrest : fixVals rest with
        | none =>
          rw [hrest] at h
          cases h
        | some ws =>
          rw [hrest] at h
          injection h with h
          subst h
          rw [lookupKey, if_neg hkk]
          exact ih hrest hk

theorem fixVals_lookup_some {es fs : List (String × Val)} (h : fixVals es = some fs)
    {k : String} {v : Val} (hk : lookupKey es k = some v) :
    ∃ w, lookupKey fs k = some w ∧ fix_oneof_const_schemas v = some w := by
  induction es generalizing fs with
  | nil => cases hk
  | cons e rest ih =>
    obtain ⟨k', v'⟩ := e
    rw [fixVals] at h
    cases hfv : fix_oneof_const_schemas v' with
    | none =>
      rw [hfv] at h
      cases h
    | some w' =>
      rw [hfv] at h
      cases hrest : fixVals rest with
      | none =>
        rw [hrest] at h
        cases h
      | some ws =>
        rw [hrest] at h
        injection h with h
        subst h
        rw [lookupKey] at hk
        by_cases hkk : k' = k
        · rw [if_pos hkk] at hk
          injection hk with hk
          subst hk
          exact ⟨w', by rw [lookupKey, if_pos hkk], hfv⟩
        · rw [if_neg hkk] at hk
          obtain ⟨w, hw1, hw2⟩ := ih hrest hk
          exact ⟨w, by rw [lookupKey, if_neg hkk]; exact hw1, hw2⟩

theorem fixVals_mem {es fs : List (String × Val)} (h : fixVals es = some fs)
    {k : String} {w : Val} (hm : (k, w) ∈ fs) :
    ∃ v, (k, v) ∈ es ∧ fix_oneof_const_schemas v = some w := by
  induction es generalizing fs with
  | nil =>
    injection h with h
    subst h
    cases hm
  | cons e rest ih =>
    obtain ⟨k', v'⟩ := e
    rw [fixVals] at h
    cases hfv : fix_oneof_const_schemas v' with
    | none =>
      rw [hfv] at h
      cases h
    | some w' =>
      rw [hfv] at h
      cases hrest : fixVals rest with
      | none =>
        rw [hrest] at h
        cases h
      | some ws =>
        rw [hrest] at h
        injection h with h
        subst h
        rcases List.mem_cons.mp hm with he | hm'
        · injection he with h1 h2
          subst h1
          subst h2
          exact ⟨v', List.mem_cons_self _ _, hfv⟩
        · obtain ⟨v, hv1, hv2⟩ := ih hrest hm'
          exact ⟨v, List.mem_cons_of_mem _ hv1, hv2⟩

theorem fixVals_fixpoint {fs : List (String × Val)}
    (h : ∀ kw ∈ fs, fix_oneof_const_schemas kw.2 = some kw.2) :
    fixVals fs = some fs := by
  induction fs with
  | nil => rfl
  | cons e rest ih =>
    obtain ⟨k, w⟩ := e
    rw [fixVals]
    rw [h (k, w) (List.mem_cons_self _ _)]
    rw [ih (fun kw hkw => h kw (List.mem_cons_of_mem _ hkw))]

theorem fixElems_mem {xs ys : List Val} (h : fixElems xs = some ys)
    {y : Val} (hm : y ∈ ys) : ∃ x ∈ xs, fix_oneof_const_schemas x = some y := by
  induction xs generalizing ys with
  | nil =>
    injection h with h
    subst h
    cases hm
  | cons x rest ih =>
    rw [fixElems] at h
    cases hfx : fix_oneof_const_schemas x with
    | none =>
      rw [hfx] at h
      cases h
    | some w =>
      rw [hfx] at h
      cases hrest : fixElems rest with
      | none =>
        rw [hrest] at h
        cases h
      | some ws =>
        rw [hrest] at h
        injection h with h
        subst h
        rcases List.mem_cons.mp hm with rfl | hm'
        · exact ⟨x, List.mem_cons_self _ _, hfx⟩
        · obtain ⟨x', hx1, hx2⟩ := ih hrest hm'
          exact ⟨x', List.mem_cons_of_mem _ hx1, hx2⟩

theorem fixElems_forall {xs ys : List Val} (h : fixElems xs = some ys)
    {x : Val} (hm : x ∈ xs) : ∃ y ∈ ys, fix_oneof_const_schemas x = some y := by
  induction xs generalizing ys with
  | nil => cases hm
  | cons x' rest ih =>
    rw [fixElems] at h
    cases hfx : fix_oneof_const_schemas x' with
    | none =>
      rw [hfx] at h
      cases h
    | some w =>
      rw [hfx] at h
      cases hrest : fixElems rest with
      | none =>
        rw [hrest] at h
        cases h
      | some ws =>
        rw [hrest] at h
        injection h with h
        subst h
        rcases List.mem_cons.mp hm with rfl | hm'
        · exact ⟨w, List.mem_cons_self _ _, hfx⟩
        · obtain ⟨y, hy1, hy2⟩ := ih hrest hm'
          exact ⟨y, List.mem_cons_of_mem _ hy1, hy2⟩

theorem fixElems_fixpoint {ys : List Val}
    (h : ∀ y ∈ ys, fix_oneof_const_schemas y = some y) : fixElems ys = some ys := by
  induction ys with
  | nil => rfl
  | cons y rest ih =>
    rw [fixElems]
    rw [h y (List.mem_cons_self _ _)]
    rw [ih (fun y' hy' => h y' (List.mem_cons_of_mem _ hy'))]

theorem fix_preserves_nonlist {v w : Val} (h : fix_oneof_const_schemas v = some w)
    (hnl : ∀ xs, v ≠ Val.vlist xs) : ∀ xs, w ≠ Val.vlist xs := by
  cases v with
  | vlist xs => exact absurd rfl (hnl xs)
  | vobj kvs =>
    obtain ⟨kvs2, fs, _, _, rfl⟩ := fix_obj_dest h
    exact fun xs hx => Val.noConfusion hx
  | vnull =>
    have h1 : (some Val.vnull : Option Val) = some w := h
    injection h1 with h1
    subst h1
    exact fun xs hx => Val.noConfusion hx
  | vbool b =>
    have h1 : (some (Val.vbool b) : Option Val) = some w := h
    injection h1 with h1
    subst h1
    exact fun xs hx => Val.noConfusion hx
  | vint i =>
    have h1 : (some (Val.vint i) : Option Val) = some w := h
    injection h1 with h1
    subst h1
    exact fun xs hx => Val.noConfusion hx
  | vstr s =>
    have h1 : (some (Val.vstr s) : Option Val) = some w := h
    injection h1 with h1
    subst h1
    exact fun xs hx => Val.noConfusion hx

theorem lookupKey_filter_none (q : String × Val → Bool) {kvs : List (String × Val)}
    {k : String} (h : lookupKey kvs k = none) :
    lookupKey (kvs.filter q) k = none := by
  induction kvs with
  | nil => simp [lookupKey]
  | cons e rest ih =>
    obtain ⟨k', v⟩ := e
    rw [lookupKey] at h
    by_cases hkk : k' = k
    · rw [if_pos hkk] at h
      cases h
    · rw [if_neg hkk] at h
      rw [List.filter_cons]
      by_cases hq : q (k', v) = true
      · rw [if_pos hq, lookupKey, if_neg hkk]
        exact ih h
      · rw [if_neg hq]
        exact ih h

theorem lookupKey_filter_oneOf (kvs : List (String × Val)) :
    lookupKey (kvs.filter
        (fun kv => !(kv.1 = "oneOf" || kv.1 = "type" || kv.1 = "enum")))
      "oneOf" = none := by
  induction kvs with
  | nil => simp [lookupKey]
  | cons e rest ih =>
    obtain ⟨k, v⟩ := e
    rw [List.filter_cons]
    by_cases hk : k = "oneOf"
    · rw [if_neg (by simp [hk])]
      exact ih
    · by_cases hq : (!(decide (k = "oneOf") || decide (k = "type") || decide (k = "enum"))) = true
      · rw [if_pos hq, lookupKey, if_neg hk]
        exact ih
      · rw [if_neg hq]
        exact ih

theorem convertObjEntries_const_none {kvs kvs2 : List (String × Val)}
    (h : convertObjEntries kvs = some kvs2)
    (hc : lookupKey kvs "const" = none) : lookupKey kvs2 "const" = none := by
  cases hoo : lookupKey kvs "oneOf" with
  | none =>
    rw [convertObjEntries_of_none hoo] at h
    injection h with h
    subst h
    exact hc
  | some w =>
    by_cases hwl : ∃ one_of, w = Val.vlist one_of
    · obtain ⟨one_of, rfl⟩ := hwl
      cases one_of with
      | nil =>
        rw [convertObjEntries_of_nil hoo] at h
        cases h
      | cons first rest2 =>
        cases hall : (first :: rest2).all isConstItem with
        | false =>
          rw [convertObjEntries_of_notall hoo hall] at h
          injection h with h
          subst h
          exact hc
        | true =>
          rw [convertObjEntries_of_all hoo hall] at h
          injection h with h
          subst h
          rw [lookupKey, if_neg (by decide), lookupKey, if_neg (by decide)]
          exact lookupKey_filter_none _ hc
    · have hnl : ∀ xs, w ≠ Val.vlist xs := fun xs hx => hwl ⟨xs, hx⟩
      rw [convertObjEntries_of_nonlist hoo hnl] at h
      injection h with h
      subst h
      exact hc

theorem fix_preserves_notconst {v w : Val} (h : fix_oneof_const_schemas v = some w)
    (hv : isConstItem v = false) : isConstItem w = false := by
  cases v with
  | vobj kvs =>
    obtain ⟨kvs2, fs, hstep, hfv, rfl⟩ := fix_obj_dest h
    have hnone : lookupKey kvs "const" = none := by
      cases hlk : lookupKey kvs "const" with
      | none => rfl
      | some c =>
        have hv' : (lookupKey kvs "const").isSome = false := hv
        rw [hlk] at hv'
        cases hv'
    have hnone2 : lookupKey kvs2 "const" = none := by
      by_cases hoo : (lookupKey kvs "oneOf").isSome = true
      · rw [if_pos hoo] at hstep
        exact convertObjEntries_const_none hstep hnone
      · rw [if_neg hoo] at hstep
        injection hstep with hstep
        subst hstep
        exact hnone
    show (lookupKey fs "const").isSome = false
    rw [fixVals_lookup_none hfv hnone2]
    rfl
  | vlist xs =>
    obtain ⟨ys, _, rfl⟩ := fix_list_dest h
    rfl
  | vnull =>
    have h1 : (some Val.vnull : Option Val) = some w := h
    injection h1 with h1
    subst h1
    rfl
  | vbool b =>
    have h1 : (some (Val.vbool b) : Option Val) = some w := h
    injection h1 with h1
    subst h1
    rfl
  | vint i =>
    have h1 : (some (Val.vint i) : Option Val) = some w := h
    injection h1 with h1
    subst h1
    rfl
  | vstr s =>
    have h1 : (some (Val.vstr s) : Option Val) = some w := h
    injection h1 with h1
    subst h1
    rfl

/- ============== idempotence of the recursive fix ============== -/

theorem fix_fix_of_bound : ∀ n : Nat, ∀ v y : Val, valSize v ≤ n →
    fix_oneof_const_schemas v = some y → fix_oneof_const_schemas y = some y := by
  intro n
  induction n with
  | zero =>
    intro v y hv _
    exact absurd hv (by have := one_le_valSize v; omega)
  | succ n ih =>
    intro v y hv hfix
    cases v with
    | vnull =>
      have h1 : (some Val.vnull : Option Val) = some y := hfix
      injection h1 with h1
      subst h1
      rfl
    | vbool b =>
      have h1 : (some (Val.vbool b) : Option Val) = some y := hfix
      injection h1 with h1
      subst h1
      rfl
    | vint i =>
      have h1 : (some (Val.vint i) : Option Val) = some y := hfix
      injection h1 with h1
      subst h1
      rfl
    | vstr s =>
      have h1 : (some (Val.vstr s) : Option Val) = some y := hfix
      injection h1 with h1
      subst h1
      rfl
    | vlist xs =>
      obtain ⟨ys, hfe, rfl⟩ := fix_list_dest hfix
      have hsz : listVS xs ≤ n := by
        simp only [valSize] at hv
        omega
      have hfix_ys : ∀ y' ∈ ys, fix_oneof_const_schemas y' = some y' := by
        intro y' hy'
        obtain ⟨x, hx, hfx⟩ := fixElems_mem hfe hy'
        have hb := mem_listVS hx
        exact ih x y' (by omega) hfx
      rw [fix_list_eq, fixElems_fixpoint hfix_ys]
      rfl
    | vobj kvs =>
      obtain ⟨kvs2, fs, hstep, hfv, rfl⟩ := fix_obj_dest hfix
      have hszk : entriesVS kvs ≤ n := by
        simp only [valSize] at hv
        omega
      have hsz2 : entriesVS kvs2 ≤ entriesVS kvs := convertStep_entriesVS hstep
      have hfix_fs : ∀ kw ∈ fs, fix_oneof_const_schemas kw.2 = some kw.2 := by
        intro kw hkw
        obtain ⟨k, w⟩ := kw
        obtain ⟨v', hv', hfx⟩ := fixVals_mem hfv hkw
        have hb := mem_entriesVS hv'
        exact ih v' w (by omega) hfx
      rw [fix_obj_eq]
      suffices hstep2 : (if (lookupKey fs "oneOf").isSome then convertObjEntries fs
          else some fs) = some fs by
        rw [hstep2]
        show (fixVals fs).map Val.vobj = some (Val.vobj fs)
        rw [fixVals_fixpoint hfix_fs]
        rfl
      by_cases hoo : (lookupKey kvs "oneOf").isSome = true
      · rw [if_pos hoo] at hstep
        obtain ⟨w, hw⟩ := Option.isSome_iff_exists.mp hoo
        by_cases hwl : ∃ one_of, w = Val.vlist one_of
        · obtain ⟨one_of, rfl⟩ := hwl
          cases one_of with
          | nil =>
            rw [convertObjEntries_of_nil hw] at hstep
            cases hstep
          | cons first rest2 =>
            cases hall : (first :: rest2).all isConstItem with
            | true =>
              rw [convertObjEntries_of_all hw hall] at hstep
              injection hstep with hstep
              subst hstep
              have hnoo2 : lookupKey (("type", getTypeVal first)
                  :: ("enum", Val.vlist ((first :: rest2).map getConstVal))
                  :: kvs.filter
                    (fun kv => !(kv.1 = "oneOf" || kv.1 = "type" || kv.1 = "enum")))
                  "oneOf" = none := by
                rw [lookupKey, if_neg (by decide), lookupKey, if_neg (by decide)]
                exact lookupKey_filter_oneOf kvs
              have hfsnone : lookupKey fs "oneOf" = none :=
                fixVals_lookup_none hfv hnoo2
              rw [if_neg (by intro hc; rw [hfsnone] at hc; cases hc)]
            | false =>
              rw [convertObjEntries_of_notall hw hall] at hstep
              injection hstep with hstep
              subst hstep
              obtain ⟨w', hw', hfw⟩ := fixVals_lookup_some hfv hw
              obtain ⟨ws, hfel, rfl⟩ := fix_list_dest hfw
              rw [if_pos (by rw [hw']; rfl)]
              have hallws : ws.all isConstItem = false := by
                have hex : ∃ m ∈ first :: rest2, isConstItem m = false := by
                  by_contra hcon
                  push_neg at hcon
                  have hat : (first :: rest2).all isConstItem = true :=
                    List.all_eq_true.mpr (fun m hm => by
                      cases hmv : isConstItem m with
                      | true => rfl
                      | false => exact absurd hmv (hcon m hm))
                  rw [hall] at hat
                  cases hat
                obtain ⟨mm, hmm, hmf⟩ := hex
                obtain ⟨y', hy', hfy⟩ := fixElems_forall hfel hmm
                have hyc : isConstItem y' = false := fix_preserves_notconst hfy hmf
                cases hws : ws.all isConstItem with
                | false => rfl
                | true =>
                  have hall2 := List.all_eq_true.mp hws y' hy'
                  rw [hyc] at hall2
                  cases hall2
              exact convertObjEntries_of_notall hw' hallws
        · have hnl : ∀ xs, w ≠ Val.vlist xs := fun xs hx => hwl ⟨xs, hx⟩
          rw [convertObjEntries_of_nonlist hw hnl] at hstep
          injection hstep with hstep
          subst hstep
          obtain ⟨w', hw', hfw⟩ := fixVals_lookup_some hfv hw
          have hnl' : ∀ xs, w' ≠ Val.vlist xs := fix_preserves_nonlist hfw hnl
          rw [if_pos (by rw [hw']; rfl)]
          exact convertObjEntries_of_nonlist hw' hnl'
      · rw [if_neg hoo] at hstep
        injection hstep with hstep
        subst hstep
        have hnone : lookupKey kvs "oneOf" = none := by
          cases hlk : lookupKey kvs "oneOf" with
          | none => rfl
          | some w =>
            rw [hlk] at hoo
            exact absurd rfl hoo
        have hfsnone : lookupKey fs "oneOf" = none := fixVals_lookup_none hfv hnone
        rw [if_neg (by intro hc; rw [hfsnone] at hc; cases hc)]

/-- C6: the const-oneOf conversion pass is idempotent — whenever
`fix_oneof_const_schemas` succeeds on a value, running it again on the result
reproduces the result (stated monadically, since the source raises `IndexError`
on an empty all-const `oneOf`, modelled as `none`); and
`convert_oneof_const_to_enum` returns a schema object unmodified whenever its
`oneOf` list contains a member that is not an object carrying a `const` key. -/
theorem c6_oneof_const_conversion :
    (∀ x : Val,
      (fix_oneof_const_schemas x).bind fix_oneof_const_schemas
        = fix_oneof_const_schemas x) ∧
    (∀ (kvs : List (String × Val)) (one_of : List Val),
      lookupKey kvs "oneOf" = some (Val.vlist one_of) →
      (∃ m ∈ one_of, isConstItem m = false) →
      convert_oneof_const_to_enum (Val.vobj kvs) = some (Val.vobj kvs)) := by
  constructor
  · intro x
    cases hfx : fix_oneof_const_schemas x with
    | none => rfl
    | some y =>
      have hy := fix_fix_of_bound (valSize x) x y le_rfl hfx
      show fix_oneof_const_schemas y = some y
      exact hy
  · intro kvs one_of hoo hex
    have hall : one_of.all isConstItem = false := by
      obtain ⟨m, hm, hmf⟩ := hex
      cases hws : one_of.all isConstItem with
      | false => rfl
      | true =>
        have := List.all_eq_true.mp hws m hm
        rw [hmf] at this
        cases this
    show (convertObjEntries kvs).map Val.vobj = some (Val.vobj kvs)
    rw [convertObjEntries_of_notall hoo hall]
    rfl

/-- C6 witness: a `oneOf` whose sole member is `null` (not a const-carrying
object) is left unmodified by `convert_oneof_const_to_enum`. -/
theorem c6_oneof_const_conversion_witness :
    convert_oneof_const_to_enum (Val.vobj [("oneOf", Val.vlist [Val.vnull])])
      = some (Val.vobj [("oneOf", Val.vlist [Val.vnull])]) :=
  c6_oneof_const_conversion.2 [("oneOf", Val.vlist [Val.vnull])] [Val.vnull] rfl
    ⟨Val.vnull, List.mem_cons_self _ _, rfl⟩

/- ===================== C7 ===================== -/

theorem anyM_option_pure {α : Type} (g : α → Bool) (l : List α) :
    List.anyM (fun a => (some (g a) : Option Bool)) l = some (l.any g) := by
  induction l with
  | nil => rfl
  | cons a as ih =>
    cases hg : g a with
    | true => simp [List.anyM, hg]
    | false => simp [List.anyM, hg, ih]

theorem unwrapMarkCond_ref {schemas : List (String × Val)} {op : Op}
    {resps r200kvs ckvs ajkvs srkvs defkvs pkvs : List (String × Val)}
    {refStr name : String}
    (hresp : op.responses? = some resps)
    (h200 : lookupKey resps "200" = some (Val.vobj r200kvs))
    (hcontent : lookupKey r200kvs "content" = some (Val.vobj ckvs))
    (hjson : lookupKey ckvs "application/json" = some (Val.vobj ajkvs))
    (hschema : lookupKey ajkvs "schema" = some (Val.vobj srkvs))
    (href : lookupKey srkvs "$ref" = some (Val.vstr refStr))
    (hname : (pySplitSlash refStr).getLastD "" = name)
    (hne : name ≠ "")
    (hstart : startsWithStr name "List" = true)
    (hend : endsWithStr name "Response" = true)
    (hdef : lookupKey schemas name = some (Val.vobj defkvs))
    (hprops : lookupKey defkvs "properties" = some (Val.vobj pkvs)) :
    unwrapMarkCond schemas op =
      some (!(pagination_fields.any fun f => (lookupKey pkvs f).isSome) &&
        (lookupKey pkvs "data").isSome) := by
  unfold unwrapMarkCond
  simp only [hresp, h200, pyContainsKey, pyIndexStr, pyGetDefault, hcontent, hjson,
    hschema, href, Option.isSome_some, Option.getD_some, hname, hne, hstart, hend,
    hdef, hprops, ne_eq, anyM_option_pure]
  simp

/-- C7 (counterexample): an operation under the `head` method is skipped by
the unwrap pass (which only looks at `get`/`post`/`put`/`delete`/`patch`),
so even though its 200 JSON response is a `$ref` to `ListFooResponse`,
whose properties have `data` and no pagination field, the flag is not set
and the claimed equivalence fails. -/
theorem c7_counterexample :
    unwrapEntry [("ListFooResponse", Val.vobj [("properties", Val.vobj
        [("data", Val.vlist []), ("object", Val.vstr "string")])])]
      ("head", Op.mk none none none none
        (some [("200", Val.vobj [("content", Val.vobj [("application/json", Val.vobj
          [("schema", Val.vobj [("$ref",
            Val.vstr "#/components/schemas/ListFooResponse")])])])])]) none false)
      = some ("head", Op.mk none none none none
        (some [("200", Val.vobj [("content", Val.vobj [("application/json", Val.vobj
          [("schema", Val.vobj [("$ref",
            Val.vstr "#/components/schemas/ListFooResponse")])])])])]) none false) ∧
    (Op.mk none none none none
        (some [("200", Val.vobj [("content", Val.vobj [("application/json", Val.vobj
          [("schema", Val.vobj [("$ref",
            Val.vstr "#/components/schemas/ListFooResponse")])])])])]) none
        false).xUnwrapListResponse = false ∧
    unwrapMarkCond [("ListFooResponse", Val.vobj [("properties", Val.vobj
        [("data", Val.vlist []), ("object", Val.vstr "string")])])]
      (Op.mk none none none none
        (some [("200", Val.vobj [("content", Val.vobj [("application/json", Val.vobj
          [("schema", Val.vobj [("$ref",
            Val.vstr "#/components/schemas/ListFooResponse")])])])])]) none false)
      = some true :=
  ⟨rfl, rfl, rfl⟩

/-- C7 (amended): for every operation under one of the five considered
methods whose 200 JSON response schema is a `$ref` to a component named
`List*Response` with a declared properties mapping, and whose flag is not
already set, the unwrap pass sets `x-unwrap-list-response` if and only if
the properties contain `data` and none of the pagination-indicator keys. -/
theorem c7_unwrap_marking (schemas : List (String × Val)) (m : String) (op : Op)
    (resps r200kvs ckvs ajkvs srkvs defkvs pkvs : List (String × Val))
    (refStr name : String)
    (hm : pyLower m ∈ fiveMethods)
    (hflag : op.xUnwrapListResponse = false)
    (hresp : op.responses? = some resps)
    (h200 : lookupKey resps "200" = some (Val.vobj r200kvs))
    (hcontent : lookupKey r200kvs "content" = some (Val.vobj ckvs))
    (hjson : lookupKey ckvs "application/json" = some (Val.vobj ajkvs))
    (hschema : lookupKey ajkvs "schema" = some (Val.vobj srkvs))
    (href : lookupKey srkvs "$ref" = some (Val.vstr refStr))
    (hname : (pySplitSlash refStr).getLastD "" = name)
    (hne : name ≠ "")
    (hstart : startsWithStr name "List" = true)
    (hend : endsWithStr name "Response" = true)
    (hdef : lookupKey schemas name = some (Val.vobj defkvs))
    (hprops : lookupKey defkvs "properties" = some (Val.vobj pkvs)) :
    ∃ op', unwrapEntry schemas (m, op) = some (m, op') ∧
      (op'.xUnwrapListResponse = true ↔
        ((lookupKey pkvs "data").isSome = true ∧
          ∀ f ∈ pagination_fields, lookupKey pkvs f = none)) := by
  have hcond := unwrapMarkCond_ref hresp h200 hcontent hjson hschema href hname hne
    hstart hend hdef hprops
  unfold unwrapEntry
  simp only [hm, if_true, hcond]
  cases hb : (!(pagination_fields.any fun f => (lookupKey pkvs f).isSome) &&
      (lookupKey pkvs "data").isSome) with
  | true =>
    refine ⟨setUnwrapFlag op, rfl, ?_⟩
    rw [Bool.and_eq_true, Bool.not_eq_true'] at hb
    simp only [setUnwrapFlag, true_iff]
    refine ⟨hb.2, fun f hf => ?_⟩
    have hfalse : (lookupKey pkvs f).isSome = false := by
      by_contra hcontra
      rw [Bool.not_eq_false] at hcontra
      have hany : pagination_fields.any (fun f => (lookupKey pkvs f).isSome) = true :=
        List.any_eq_true.mpr ⟨f, hf, hcontra⟩
      rw [hb.1] at hany
      cases hany
    cases hlk : lookupKey pkvs f with
    | none => rfl
    | some v =>
      rw [hlk] at hfalse
      cases hfalse
  | false =>
    refine ⟨op, rfl, ?_⟩
    rw [hflag]
    simp only [Bool.false_eq_true, false_iff, not_and]
    intro hdata hall
    rw [Bool.and_eq_false_iff] at hb
    rcases hb with hb | hb
    · have hany : (pagination_fields.any fun f => (lookupKey pkvs f).isSome) = true := by
        cases hx : (pagination_fields.any fun f => (lookupKey pkvs f).isSome) with
        | true => rfl
        | false => rw [hx] at hb; cases hb
      obtain ⟨f, hf, hsome⟩ := List.any_eq_true.mp hany
      rw [hall f hf] at hsome
      cases hsome
    · rw [hdata] at hb
      cases hb

/-- C7 (witness): the amended theorem applied to the spec's example — a
`get` operation returning `ListFooResponse` with properties
`{data, object}` and no pagination fields. -/
theorem c7_unwrap_marking_witness :
    ∃ op', unwrapEntry [("ListFooResponse", Val.vobj [("properties", Val.vobj
        [("data", Val.vlist []), ("object", Val.vstr "string")])])]
      ("get", Op.mk none none none none
        (some [("200", Val.vobj [("content", Val.vobj [("application/json", Val.vobj
          [("schema", Val.vobj [("$ref",
            Val.vstr "#/components/schemas/ListFooResponse")])])])])]) none false)
      = some ("get", op') ∧
      (op'.xUnwrapListResponse = true ↔
        ((lookupKey [("data", Val.vlist []), ("object", Val.vstr "string")]
            "data").isSome = true ∧
          ∀ f ∈ pagination_fields,
            lookupKey [("data", Val.vlist []), ("object", Val.vstr "string")] f
              = none)) :=
  c7_unwrap_marking
    [("ListFooResponse", Val.vobj [("properties", Val.vobj
      [("data", Val.vlist []), ("object", Val.vstr "string")])])]
    "get"
    (Op.mk none none none none
      (some [("200", Val.vobj [("content", Val.vobj [("application/json", Val.vobj
        [("schema", Val.vobj [("$ref",
          Val.vstr "#/components/schemas/ListFooResponse")])])])])]) none false)
    [("200", Val.vobj [("content", Val.vobj [("application/json", Val.vobj
      [("schema", Val.vobj [("$ref",
        Val.vstr "#/components/schemas/ListFooResponse")])])])])]
    [("content", Val.vobj [("application/json", Val.vobj
      [("schema", Val.vobj [("$ref",
        Val.vstr "#/components/schemas/ListFooResponse")])])])]
    [("application/json", Val.vobj
      [("schema", Val.vobj [("$ref",
        Val.vstr "#/components/schemas/ListFooResponse")])])]
    [("schema", Val.vobj [("$ref", Val.vstr "#/components/schemas/ListFooResponse")])]
    [("$ref", Val.vstr "#/components/schemas/ListFooResponse")]
    [("properties", Val.vobj [("data", Val.vlist []), ("object", Val.vstr "string")])]
    [("data", Val.vlist []), ("object", Val.vstr "string")]
    "#/components/schemas/ListFooResponse" "ListFooResponse"
    (by decide) rfl rfl rfl rfl rfl rfl rfl rfl (by decide) (by decide) (by decide)
    rfl rfl

/- ===================== C8 ===================== -/

/-- C8: inserting the same tag list a second time leaves the tree unchanged,
hence the extracted parent-child pair list is also unchanged, for every
starting tree and every tag list. -/
theorem c8_insert_idempotent (ts : List String) (h : Hier) :
    build_hierarchy_from_tags ts (build_hierarchy_from_tags ts h)
        = build_hierarchy_from_tags ts h ∧
      ∀ parent, extract_parent_child_pairs
          (build_hierarchy_from_tags ts (build_hierarchy_from_tags ts h)) parent
        = extract_parent_child_pairs (build_hierarchy_from_tags ts h) parent := by
  refine ⟨build_hierarchy_idem ts h, fun parent => ?_⟩
  rw [build_hierarchy_idem ts h]
